import Mathlib

/-!
Verification of the polygon-morphing geometry engine of screen-grounded-translator
(the LoadingIndicator animation library).

The JavaScript sources are shallowly embedded over `ℚ`: IEEE doubles are modelled as
exact rationals, so every arithmetic identity of the source is preserved exactly while
rounding noise is abstracted away.  JavaScript's `%` operator (a truncated-division
remainder) is embedded by `jsMod`, and fallible constructors (functions containing
`throw`) return `Except String α`.  Functions with no failure branch are embedded as
total functions.

Sources embedded here:
  * utils.js               — `interpolate`, `positiveModulo`, epsilon constants, `Point`
  * cubic.js (part_003)    — `Cubic`: `pointOnCurve`, `zeroLength`, `split`,
                             `straightLine`
  * roundedPolygon.js      — `Feature`, `RoundedPolygon.#flattenCubics`,
                             `RoundedPolygon.#validateContinuity`
  * measuredPolygon.js     — `MeasuredCubic`, `MeasuredPolygon` (constructor,
    (utils.js part 2)        `cutAtProgress`, `cutAndShift`, `measurePolygon`)
  * floatMapping.js        — `progressInRange`, `linearMap`, `DoubleMapper`,
                             `validateProgress`, `progressDistance`
  * featureMapper.js       — `ProgressableFeature`, `featureDistSquared`,
    (floatMapping part 2)    `doMapping`, `MappingHelper`, `featureMapper`
  * part_004               — `Morph`: `asCubics`, `forEachCubic`, `bounds`
-/

namespace Shapes

/-! ## utils.js: constants and numeric helpers -/

/-- `DistanceEpsilon = 1e-4` (utils.js). -/
def DistanceEpsilon : ℚ := 1 / 10000

/-- `AngleEpsilon = 1e-6` (utils.js). -/
def AngleEpsilon : ℚ := 1 / 1000000

/-- `interpolate(start, stop, fraction) = (1 - fraction) * start + fraction * stop`
(utils.js). -/
def interpolate (start stop fraction : ℚ) : ℚ :=
  (1 - fraction) * start + fraction * stop

/-- Truncation toward zero, the rounding used by JavaScript's `%` operator. -/
def ratTrunc (q : ℚ) : ℤ := if 0 ≤ q then ⌊q⌋ else -⌊-q⌋

/-- JavaScript's `%` remainder: `a % b = a - b * trunc(a / b)`. -/
def jsMod (a b : ℚ) : ℚ := a - b * (ratTrunc (a / b) : ℚ)

/-- `positiveModulo(num, mod) = ((num % mod) + mod) % mod` (utils.js),
with `%` being JavaScript's truncated remainder. -/
def positiveModulo (num m : ℚ) : ℚ := jsMod (jsMod num m + m) m

/-- `progressDistance(p1, p2) = min(|p1-p2|, 1-|p1-p2|)` (floatMapping.js):
circular distance on the unit circle of circumference 1. -/
def progressDistance (p1 p2 : ℚ) : ℚ := min |p1 - p2| (1 - |p1 - p2|)

/-! ## cubic.js: `Point` and `Cubic` -/

/-- 2D point (utils.js `Point`, value type). -/
structure Point where
  x : ℚ
  y : ℚ
deriving DecidableEq, Repr

/-- An immutable cubic Bézier curve: two anchors and two control points, stored as
8 coordinates exactly as the `Float32Array(8)` of cubic.js. -/
structure Cubic where
  anchor0X : ℚ
  anchor0Y : ℚ
  control0X : ℚ
  control0Y : ℚ
  control1X : ℚ
  control1Y : ℚ
  anchor1X : ℚ
  anchor1Y : ℚ
deriving DecidableEq, Repr

/-- `createCubic` (cubic.js): positional constructor for `Cubic`. -/
def createCubic (a0x a0y c0x c0y c1x c1y a1x a1y : ℚ) : Cubic :=
  ⟨a0x, a0y, c0x, c0y, c1x, c1y, a1x, a1y⟩

/-- `Cubic.pointOnCurve(t)` (cubic.js lines 109-126): standard cubic Bézier
evaluation at parameter `t`. -/
def Cubic.pointOnCurve (c : Cubic) (t : ℚ) : Point :=
  let u := 1 - t
  let u2 := u * u
  let u3 := u2 * u
  let t2 := t * t
  let t3 := t2 * t
  ⟨c.anchor0X * u3 + c.control0X * (3 * t * u2) + c.control1X * (3 * t2 * u) +
     c.anchor1X * t3,
   c.anchor0Y * u3 + c.control0Y * (3 * t * u2) + c.control1Y * (3 * t2 * u) +
     c.anchor1Y * t3⟩

/-- `Cubic.zeroLength()` (cubic.js lines 129-132): both anchors coincide within
`DistanceEpsilon` in each coordinate. -/
def Cubic.zeroLength (c : Cubic) : Bool :=
  |c.anchor0X - c.anchor1X| < DistanceEpsilon ∧ |c.anchor0Y - c.anchor1Y| < DistanceEpsilon

/-- `Cubic.split(t)` (cubic.js lines 253-271): subdivision of the curve at `t`
into two cubics. -/
def Cubic.split (c : Cubic) (t : ℚ) : Cubic × Cubic :=
  let u := 1 - t
  let p := c.pointOnCurve t
  (createCubic
      c.anchor0X c.anchor0Y
      (c.anchor0X * u + c.control0X * t) (c.anchor0Y * u + c.control0Y * t)
      (c.anchor0X * u * u + c.control0X * 2 * u * t + c.control1X * t * t)
      (c.anchor0Y * u * u + c.control0Y * 2 * u * t + c.control1Y * t * t)
      p.x p.y,
   createCubic
      p.x p.y
      (c.control0X * u * u + c.control1X * 2 * u * t + c.anchor1X * t * t)
      (c.control0Y * u * u + c.control1Y * 2 * u * t + c.anchor1Y * t * t)
      (c.control1X * u + c.anchor1X * t) (c.control1Y * u + c.anchor1Y * t)
      c.anchor1X c.anchor1Y)

/-- `Cubic.straightLine(x0, y0, x1, y1)` (cubic.js lines 322-329): a cubic tracing
the straight segment, controls at the 1/3 and 2/3 interpolation points. -/
def Cubic.straightLine (x0 y0 x1 y1 : ℚ) : Cubic :=
  createCubic
    x0 y0
    (interpolate x0 x1 (1/3)) (interpolate y0 y1 (1/3))
    (interpolate x0 x1 (2/3)) (interpolate y0 y1 (2/3))
    x1 y1

/-- `Cubic.empty(x0, y0)` (cubic.js lines 369-371): the degenerate cubic pinned
at one point. -/
def Cubic.emptyAt (x0 y0 : ℚ) : Cubic := createCubic x0 y0 x0 y0 x0 y0 x0 y0

/-! ## part_004: `Morph` (definitions)

The data model of §3: a `Morph` is an immutable list of matched cubic pairs
(`morphMatch`), built once by `Morph.match` and then only queried.  The query
operations `asCubics`, `forEachCubic` and `bounds` are embedded below exactly as
written in part_004; none of them contains a `throw`, so they are total functions
of the pair list and the progress value. -/

/-- One element of `morphMatch`: `{ first: Cubic, second: Cubic }`. -/
structure CubicPair where
  first : Cubic
  second : Cubic
deriving DecidableEq, Repr

/-- A `Morph` as queried at runtime: its matched pair list. -/
structure Morph where
  morphMatch : List CubicPair
deriving DecidableEq, Repr

/-- The interpolation loop body shared by `asCubics`, `bounds` and
`MutableCubic.interpolate`: every one of the 8 coordinates interpolated at
`progress`. -/
def interpCubic (pair : CubicPair) (progress : ℚ) : Cubic :=
  ⟨interpolate pair.first.anchor0X pair.second.anchor0X progress,
   interpolate pair.first.anchor0Y pair.second.anchor0Y progress,
   interpolate pair.first.control0X pair.second.control0X progress,
   interpolate pair.first.control0Y pair.second.control0Y progress,
   interpolate pair.first.control1X pair.second.control1X progress,
   interpolate pair.first.control1Y pair.second.control1Y progress,
   interpolate pair.first.anchor1X pair.second.anchor1X progress,
   interpolate pair.first.anchor1Y pair.second.anchor1Y progress⟩

/-- Replace a cubic's end anchor (used by the final-anchor snap of `asCubics`
and by the zero-length merge of `RoundedPolygon.#flattenCubics`). -/
def withEndAnchor (c : Cubic) (x y : ℚ) : Cubic :=
  { c with anchor1X := x, anchor1Y := y }

/-- Default cubic used only as the `getD` fallback in statements. -/
def defaultCubic : Cubic := Cubic.emptyAt 0 0

/-- State of the `asCubics` loop: the result array plus the `firstCubic` /
`lastCubic` registers of part_004 lines 131-147. -/
structure AsCubicsState where
  result : List Cubic
  firstCubic : Option Cubic
  lastCubic : Option Cubic

/-- One iteration of the `asCubics` loop (part_004 lines 133-147). -/
def asCubicsStep (progress : ℚ) (st : AsCubicsState) (pair : CubicPair) : AsCubicsState :=
  let cubic := interpCubic pair progress
  { result := st.result ++ st.lastCubic.toList,
    firstCubic := some (st.firstCubic.getD cubic),
    lastCubic := some cubic }

/-- `Morph.asCubics(progress)` (part_004 lines 123-164): interpolate every pair at
`progress`; the first/last mechanism replaces the final cubic's end anchor with the
first cubic's start anchor. -/
def Morph.asCubics (m : Morph) (progress : ℚ) : List Cubic :=
  if m.morphMatch.isEmpty then []
  else
    let st := m.morphMatch.foldl (asCubicsStep progress) ⟨[], none, none⟩
    match st.lastCubic, st.firstCubic with
    | some lastC, some firstC =>
        st.result ++
          [createCubic lastC.anchor0X lastC.anchor0Y lastC.control0X lastC.control0Y
            lastC.control1X lastC.control1Y firstC.anchor0X firstC.anchor0Y]
    | _, _ => st.result

/-- The sequence of cubic values passed to the visitor by
`Morph.forEachCubic(progress, callback, mutableCubic)` (part_004 lines 177-183):
at each iteration the scratch cubic holds the interpolation of the current pair,
with no final-anchor snap. -/
def Morph.forEachCubicSeq (m : Morph) (progress : ℚ) : List Cubic :=
  m.morphMatch.map (fun pair => interpCubic pair progress)

/-- Running bounds of the `Morph.bounds` loop. -/
structure Bounds4 where
  minX : ℚ
  minY : ℚ
  maxX : ℚ
  maxY : ℚ
deriving DecidableEq, Repr

/-- The four `(x, y)` points of a cubic, in the order the `bounds` inner loop
visits them (`points[i], points[i+1]` for `i = 0, 2, 4, 6`). -/
def cubicPoints (c : Cubic) : List (ℚ × ℚ) :=
  [(c.anchor0X, c.anchor0Y), (c.control0X, c.control0Y),
   (c.control1X, c.control1Y), (c.anchor1X, c.anchor1Y)]

/-- One min/max update of the `bounds` loop.  `none` models the
`Infinity / -Infinity` initial accumulators, which any first point replaces. -/
def expandBounds (b : Option Bounds4) (pt : ℚ × ℚ) : Option Bounds4 :=
  match b with
  | none => some ⟨pt.1, pt.2, pt.1, pt.2⟩
  | some b => some ⟨min b.minX pt.1, min b.minY pt.2, max b.maxX pt.1, max b.maxY pt.2⟩

/-- One outer iteration of the `bounds` loop (part_004 lines 87-102): interpolate
the pair, then fold its four points into the running bounds. -/
def boundsStep (progress : ℚ) (st : Option Bounds4) (pair : CubicPair) : Option Bounds4 :=
  (cubicPoints (interpCubic pair progress)).foldl expandBounds st

/-- `Morph.bounds(progress)` (part_004 lines 80-107), returning
`(minX, minY, maxX, maxY)`.  The source line `bounds[3] = Math.max(maxY, bounds[3])`
is a no-op (`max maxY maxY`) and is dropped. -/
def Morph.bounds (m : Morph) (progress : ℚ) : ℚ × ℚ × ℚ × ℚ :=
  if m.morphMatch.isEmpty then (0, 0, 0, 0)
  else
    match m.morphMatch.foldl (boundsStep progress) none with
    | some b => (b.minX, b.minY, b.maxX, b.maxY)
    | none => (0, 0, 0, 0)

/-- Modelled from the spec (§4.8 query operations), for comparison with the
code-level `Morph.asCubics`: the list of pairwise linear extrapolations at
`progress`, with the final cubic's end anchor snapped to the first cubic's start
anchor.  No clamping of `progress` anywhere. -/
def Morph.asCubicsSpec (m : Morph) (progress : ℚ) : List Cubic :=
  let l := m.forEachCubicSeq progress
  match l.getLast? with
  | none => []
  | some lastC =>
      l.dropLast ++
        [withEndAnchor lastC (l.headD defaultCubic).anchor0X (l.headD defaultCubic).anchor0Y]

/-- Modelled from the spec (§4.8): `bounds(progress)` is the min/max of all
interpolated coordinates across all pairs, the coordinates interpolated (not
clamped) at `progress`. -/
def Morph.boundsSpec (m : Morph) (progress : ℚ) : ℚ × ℚ × ℚ × ℚ :=
  match (m.forEachCubicSeq progress).flatMap cubicPoints with
  | [] => (0, 0, 0, 0)
  | pt :: rest =>
      ((rest.map Prod.fst).foldl min pt.1, (rest.map Prod.snd).foldl min pt.2,
       (rest.map Prod.fst).foldl max pt.1, (rest.map Prod.snd).foldl max pt.2)

/-- A one-pair morph over an open (non-closed) cubic, separating `forEachCubic`
from `asCubics`. -/
def morphOpen : Morph :=
  ⟨[⟨Cubic.straightLine 0 0 1 0, Cubic.straightLine 0 0 1 0⟩]⟩

/-- A closed two-pair morph: the second cubic ends where the first begins. -/
def morphClosed : Morph :=
  ⟨[⟨Cubic.straightLine 0 0 1 0, Cubic.straightLine 0 0 1 0⟩,
    ⟨Cubic.straightLine 1 0 0 0, Cubic.straightLine 1 0 0 0⟩]⟩

/-! ## roundedPolygon.js: `Feature` and the flatten/continuity stage -/

/-- roundedPolygon.js `Feature`: a tagged union of rounded `Corner` (three cubics
plus a convexity flag) and straight `Edge` (one cubic); `isCorner` discriminates.
The cubic-list arity is not enforced by the class, so it is not enforced here. -/
inductive Feature where
  | corner (cubics : List Cubic) (convex : Bool)
  | edge (cubics : List Cubic)
deriving DecidableEq, Repr

/-- The `cubics` field shared by both `Feature` variants. -/
def Feature.cubics : Feature → List Cubic
  | .corner cs _ => cs
  | .edge cs => cs

/-- The `isCorner` discriminator. -/
def Feature.isCorner : Feature → Bool
  | .corner _ _ => true
  | .edge _ => false

/-- The `convex` field (`false` on edges, which never carry it in the source;
`featureDistSquared` only reads it behind an `isCorner` check). -/
def Feature.convex : Feature → Bool
  | .corner _ cv => cv
  | .edge _ => false

/-- State of the `#flattenCubics` loop (roundedPolygon.js lines 183-199):
the output array plus the `firstCubic` / `lastCubic` registers. -/
structure FlattenState where
  cubics : List Cubic
  firstCubic : Option Cubic
  lastCubic : Option Cubic

/-- One iteration of the `#flattenCubics` loop (roundedPolygon.js lines 186-199):
a non-zero-length cubic pushes the pending `lastCubic` and becomes pending itself;
a zero-length cubic is merged into the pending cubic by extending its end anchor. -/
def flattenStep (st : FlattenState) (cubic : Cubic) : FlattenState :=
  if !cubic.zeroLength then
    { cubics := st.cubics ++ st.lastCubic.toList,
      firstCubic := some (st.firstCubic.getD cubic),
      lastCubic := some cubic }
  else
    match st.lastCubic with
    | some lastC => { st with lastCubic := some (withEndAnchor lastC cubic.anchor1X cubic.anchor1Y) }
    | none => st

/-- `RoundedPolygon.#flattenCubics(features, center)` (roundedPolygon.js lines
172-210): flatten all feature cubics into one cyclic list; an empty feature list
yields the single degenerate cubic at the center; otherwise the pending final
cubic is emitted with its end anchor snapped to the first cubic's start anchor. -/
def flattenCubics (features : List Feature) (center : Point) : List Cubic :=
  if features.isEmpty then
    [createCubic center.x center.y center.x center.y center.x center.y center.x center.y]
  else
    let st := (features.flatMap Feature.cubics).foldl flattenStep ⟨[], none, none⟩
    match st.lastCubic, st.firstCubic with
    | some lastC, some firstC => st.cubics ++ [withEndAnchor lastC firstC.anchor0X firstC.anchor0Y]
    | _, _ => st.cubics

/-- `RoundedPolygon.#validateContinuity()` (roundedPolygon.js lines 212-226) as a
pass/fail predicate: with at most one cubic the check is skipped; otherwise every
cubic's start anchor must match the cyclically preceding cubic's end anchor within
`DistanceEpsilon` in each coordinate (the source throws on `> DistanceEpsilon`). -/
def validateContinuity (cs : List Cubic) : Bool :=
  if cs.length ≤ 1 then true
  else
    (List.range cs.length).all fun index =>
      let prevCubic := cs.getD ((index + cs.length - 1) % cs.length) defaultCubic
      let cubic := cs.getD index defaultCubic
      decide (¬(|cubic.anchor0X - prevCubic.anchor1X| > DistanceEpsilon ∨
                |cubic.anchor0Y - prevCubic.anchor1Y| > DistanceEpsilon))

/-- The features→cubics stage of the `RoundedPolygon` constructor (roundedPolygon.js
lines 166-169): flatten, then validate continuity, throwing on failure.  Every
constructor overload funnels through this stage, so quantifying over arbitrary
feature lists covers all construction paths. -/
def buildPolygonCubics (features : List Feature) (center : Point) : Except String (List Cubic) :=
  let cubics := flattenCubics features center
  if validateContinuity cubics then .ok cubics
  else .error "RoundedPolygon must be contiguous, with the anchor points of all curves matching the anchor points of the preceding and succeeding cubics"

/-- The C0-continuity invariant of the claim: for every index `i` taken cyclically
(including the last-to-first pair), `cubics[i].anchor1` coincides with
`cubics[i+1].anchor0` within `DistanceEpsilon` in each coordinate. -/
def isContiguous (cs : List Cubic) : Prop :=
  ∀ i < cs.length,
    |(cs.getD i defaultCubic).anchor1X -
       (cs.getD ((i + 1) % cs.length) defaultCubic).anchor0X| ≤ DistanceEpsilon ∧
    |(cs.getD i defaultCubic).anchor1Y -
       (cs.getD ((i + 1) % cs.length) defaultCubic).anchor0Y| ≤ DistanceEpsilon

/-- Invariant of the flatten loop state: before anything is pushed to the output
array, the pending `lastCubic` still starts where `firstCubic` starts (end-anchor
merges never touch a cubic's start anchor). -/
def FlattenInv (st : FlattenState) : Prop :=
  (st.lastCubic = none → st.cubics = [] ∧ st.firstCubic = none) ∧
  (st.firstCubic = none → st.lastCubic = none) ∧
  (∀ lc fc, st.lastCubic = some lc → st.firstCubic = some fc → st.cubics = [] →
    lc.anchor0X = fc.anchor0X ∧ lc.anchor0Y = fc.anchor0Y)

/-! ## measuredPolygon.js: `ProgressableFeature`, `Measurer`, `measurePolygon` -/

/-- featureMapper.js `ProgressableFeature`: a feature with its outline progress. -/
structure ProgressableFeature where
  progress : ℚ
  feature : Feature
deriving DecidableEq, Repr

/-- The `Measurer` interface (measuredPolygon.js lines 576-595): an arc-length
functional and its inverse.  `LengthMeasurer` instantiates it with square-root
polyline sums, which are irrational; the claims about `MeasuredPolygon` hold for
every measurer, so the interface is kept abstract. -/
structure Measurer where
  measureCubic : Cubic → ℚ
  findCubicCutPoint : Cubic → ℚ → ℚ

/-- The measurer every cubic of which measures 0: `LengthMeasurer`'s exact output
on point-degenerate cubics (all its chord samples coincide). -/
def zeroMeasurer : Measurer := ⟨fun _ => 0, fun _ _ => 0⟩

/-- The flattened cubic list (`cubics`) built by `measurePolygon`
(measuredPolygon.js lines 529-539). -/
def featureCubicsList (features : List Feature) : List Cubic :=
  features.flatMap Feature.cubics

/-- `featureToCubic` of `measurePolygon`: each corner feature paired with the
flat index of its middle cubic (`Math.floor(length / 2)`); a feature with no
cubics contributes nothing because the inner loop never runs. -/
def featureToCubicGo (offset : ℕ) : List Feature → List (Feature × ℕ)
  | [] => []
  | f :: rest =>
      (if f.isCorner ∧ 0 < f.cubics.length then [(f, offset + f.cubics.length / 2)] else []) ++
        featureToCubicGo (offset + f.cubics.length) rest

/-- The cumulative-measures loop of `measurePolygon` (measuredPolygon.js lines
541-550): seed `[0]`, guard `measure < 0`, push running totals; returns the
measures array and the total. -/
def cumulativeMeasuresGo (measure : Cubic → ℚ) (total : ℚ) (acc : List ℚ) :
    List Cubic → Except String (List ℚ × ℚ)
  | [] => .ok (acc, total)
  | c :: rest =>
      let sz := measure c
      if sz < 0 then .error "Measured cubic is expected to be greater or equal to zero"
      else cumulativeMeasuresGo measure (total + sz) (acc ++ [total + sz]) rest

/-- The outline-progress normalization of `measurePolygon` (measuredPolygon.js
lines 552-555): divide by the total unless it is zero, then overwrite the last
entry with `1.0` (the array is never empty, so the `length > 0` guard always
holds and the overwrite is `dropLast ++ [1]`). -/
def normalizeOutlineProgress (measures : List ℚ) (totalMeasure : ℚ) : List ℚ :=
  let outlineProgress := measures.map (fun m => if totalMeasure = 0 then 0 else m / totalMeasure)
  outlineProgress.dropLast ++ [1]

/-- The normalized outline-progress array built inside
`MeasuredPolygon.measurePolygon` (measuredPolygon.js lines 541-555). -/
def measurePolygonProgress (measurer : Measurer) (features : List Feature) :
    Except String (List ℚ) :=
  (cumulativeMeasuresGo measurer.measureCubic 0 [0] (featureCubicsList features)).map
    (fun mt => normalizeOutlineProgress mt.1 mt.2)

/-! ## measuredPolygon.js: `MeasuredCubic` and `MeasuredPolygon` -/

/-- measuredPolygon.js `MeasuredCubic`: a cubic with its outline-progress range
and its measured size (the source stores the measurer as a field and computes
`measuredSize` from it at construction; here the measurer is passed explicitly). -/
structure MeasuredCubic where
  cubic : Cubic
  startOutlineProgress : ℚ
  endOutlineProgress : ℚ
  measuredSize : ℚ
deriving DecidableEq, Repr

/-- The `MeasuredCubic` constructor (measuredPolygon.js lines 320-336):
`end < start` beyond `DistanceEpsilon` throws; within epsilon, `end` is clamped
up to `start`. -/
def MeasuredCubic.make (measurer : Measurer) (cubic : Cubic)
    (startOutlineProgress endOutlineProgress : ℚ) : Except String MeasuredCubic :=
  if endOutlineProgress < startOutlineProgress then
    if endOutlineProgress < startOutlineProgress - DistanceEpsilon then
      .error "endOutlineProgress is expected to be equal or greater than startOutlineProgress"
    else
      .ok ⟨cubic, startOutlineProgress, startOutlineProgress, measurer.measureCubic cubic⟩
  else .ok ⟨cubic, startOutlineProgress, endOutlineProgress, measurer.measureCubic cubic⟩

/-- `MeasuredCubic.updateProgressRange` (measuredPolygon.js lines 342-351). -/
def MeasuredCubic.updateProgressRange (mc : MeasuredCubic)
    (startOutlineProgress endOutlineProgress : ℚ) : Except String MeasuredCubic :=
  if endOutlineProgress < startOutlineProgress then
    .error "endOutlineProgress is expected to be equal or greater than startOutlineProgress"
  else
    .ok { mc with startOutlineProgress := startOutlineProgress,
                  endOutlineProgress := endOutlineProgress }

/-- `MeasuredCubic.cutAtProgress` (measuredPolygon.js lines 358-393): clamp the
cut progress into this cubic's range, find the curve parameter through the
measurer, split, and return the two measured halves. -/
def MeasuredCubic.cutAtProgress (measurer : Measurer) (mc : MeasuredCubic)
    (cutOutlineProgress : ℚ) : Except String (MeasuredCubic × MeasuredCubic) :=
  let boundedCutOutlineProgress :=
    max mc.startOutlineProgress (min cutOutlineProgress mc.endOutlineProgress)
  let outlineProgressSize := mc.endOutlineProgress - mc.startOutlineProgress
  let progressFromStart := boundedCutOutlineProgress - mc.startOutlineProgress
  let relativeProgress :=
    if outlineProgressSize = 0 then 0 else progressFromStart / outlineProgressSize
  let t := measurer.findCubicCutPoint mc.cubic (relativeProgress * mc.measuredSize)
  if t < -DistanceEpsilon ∨ t > 1 + DistanceEpsilon then
    .error "Cubic cut point is expected to be between 0 and 1"
  else do
    let halves := mc.cubic.split t
    let m1 ← MeasuredCubic.make measurer halves.1 mc.startOutlineProgress
      boundedCutOutlineProgress
    let m2 ← MeasuredCubic.make measurer halves.2 boundedCutOutlineProgress
      mc.endOutlineProgress
    .ok (m1, m2)

/-- measuredPolygon.js `MeasuredPolygon`: the measured cubic list plus the corner
features with their progress. -/
structure MeasuredPolygon where
  cubics : List MeasuredCubic
  features : List ProgressableFeature
deriving DecidableEq, Repr

/-- `getD` fallback for the modular indexing of `cutAndShift` (always in range
in the source). -/
def defaultMeasuredCubic : MeasuredCubic := ⟨defaultCubic, 0, 0, 0⟩

/-- The filtering loop of the `MeasuredPolygon` constructor (measuredPolygon.js
lines 436-452): keep a cubic only when its progress span exceeds epsilon; each
kept cubic starts exactly where the previous kept one ended. -/
def buildMeasuredCubicsGo (measurer : Measurer) (start : ℚ) :
    List (Cubic × ℚ × ℚ) → Except String (List MeasuredCubic)
  | [] => .ok []
  | (c, opI, opI1) :: rest =>
      if opI1 - opI > DistanceEpsilon then do
        let mc ← MeasuredCubic.make measurer c start opI1
        let tail ← buildMeasuredCubicsGo measurer opI1 rest
        .ok (mc :: tail)
      else buildMeasuredCubicsGo measurer start rest

/-- `measuredCubics[last].updateProgressRange(undefined, 1.0)` (measuredPolygon.js
lines 453-456). -/
def setLastEndToOne : List MeasuredCubic → Except String (List MeasuredCubic)
  | [] => .ok []
  | [mc] => do
      let mc' ← mc.updateProgressRange mc.startOutlineProgress 1
      .ok [mc']
  | mc :: rest => do
      let tail ← setLastEndToOne rest
      .ok (mc :: tail)

/-- The `MeasuredPolygon` constructor (measuredPolygon.js lines 418-458):
validate the outline-progress array's shape, then build the filtered measured
cubics and force the last one to end at 1. -/
def MeasuredPolygon.make (measurer : Measurer) (features : List ProgressableFeature)
    (cubics : List Cubic) (outlineProgress : List ℚ) : Except String MeasuredPolygon :=
  if outlineProgress.length ≠ cubics.length + 1 then
    .error "Outline progress size is expected to be the cubics size + 1"
  else if outlineProgress.getD 0 0 ≠ 0 then
    .error "First outline progress value is expected to be zero"
  else if |outlineProgress.getD (outlineProgress.length - 1) 0 - 1| > DistanceEpsilon then
    .error "Last outline progress value is expected to be one"
  else do
    let spans := cubics.zip (outlineProgress.zip outlineProgress.tail)
    let filtered ← buildMeasuredCubicsGo measurer 0 spans
    let measuredCubics ← setLastEndToOne filtered
    .ok ⟨measuredCubics, features⟩

/-- `MeasuredPolygon.cutAndShift(cuttingPoint)` (measuredPolygon.js lines
466-515): range-check the cutting point, return the receiver unchanged when the
cut is within epsilon of 0 (or of 1 when no cubic's range contains it), otherwise
split the covering cubic and rebase the whole outline to start at the cut. -/
def MeasuredPolygon.cutAndShift (measurer : Measurer) (mp : MeasuredPolygon)
    (cuttingPoint : ℚ) : Except String MeasuredPolygon :=
  if cuttingPoint < 0 ∨ cuttingPoint > 1 then
    .error "Cutting point is expected to be between 0 and 1"
  else if cuttingPoint < DistanceEpsilon then .ok mp
  else
    match mp.cubics.findIdx? (fun it =>
        decide (cuttingPoint ≥ it.startOutlineProgress ∧
                cuttingPoint ≤ it.endOutlineProgress)) with
    | none =>
        if |cuttingPoint - 1| < DistanceEpsilon then .ok mp
        else .error "Cutting point not found in any cubic range"
    | some targetIndex => do
        let n := mp.cubics.length
        let target := mp.cubics.getD targetIndex defaultMeasuredCubic
        let halves ← MeasuredCubic.cutAtProgress measurer target cuttingPoint
        let retCubics := halves.2.cubic ::
          ((List.range (n - 1)).map fun i =>
            (mp.cubics.getD ((i + 1 + targetIndex) % n) defaultMeasuredCubic).cubic) ++
          [halves.1.cubic]
        let retOutlineProgress := 0 ::
          ((List.range n).map fun j =>
            positiveModulo
              ((mp.cubics.getD ((targetIndex + j) % n) defaultMeasuredCubic).endOutlineProgress -
                cuttingPoint) 1) ++ [1]
        let newFeatures := mp.features.map fun f =>
          ⟨positiveModulo (f.progress - cuttingPoint) 1, f.feature⟩
        MeasuredPolygon.make measurer newFeatures retCubics retOutlineProgress

/-- A concrete one-cubic measured polygon whose range stops just short of 1. -/
def measuredPolygonW : MeasuredPolygon :=
  ⟨[⟨Cubic.straightLine 0 0 1 0, 0, 19999/20000, 1⟩], []⟩

/-! ## featureMapper.js: feature correspondence -/

/-- `progressInRange(progress, progressFrom, progressTo)` (floatMapping.js lines
29-36; featureMapper.js line 354 defines the same function locally): membership
in a circular progress range that may wrap past 1. -/
def progressInRange (progress progressFrom progressTo : ℚ) : Bool :=
  if progressTo ≥ progressFrom then progressFrom ≤ progress ∧ progress ≤ progressTo
  else progressFrom ≤ progress ∨ progress ≤ progressTo

/-- `Number.MAX_VALUE`, the sentinel distance `featureDistSquared` assigns to
incompatible pairs, as the exact rational `(2^53 - 1) · 2^971`. -/
def maxJsValue : ℚ := (2 ^ 53 - 1) * 2 ^ 971

/-- `featureRepresentativePoint` (featureMapper.js lines 422-428): midpoint of
the first cubic's start anchor and the last cubic's end anchor.  (The source
would produce `NaN` on a feature with no cubics; `defaultCubic` stands in — the
compatibility logic never reads it.) -/
def featureRepresentativePoint (feature : Feature) : Point :=
  let firstCubic := feature.cubics.headD defaultCubic
  let lastCubic := (feature.cubics.getLast?).getD defaultCubic
  ⟨(firstCubic.anchor0X + lastCubic.anchor1X) / 2,
   (firstCubic.anchor0Y + lastCubic.anchor1Y) / 2⟩

/-- `featureDistSquared` (featureMapper.js lines 406-416): squared distance of
the representative points, or `Number.MAX_VALUE` when two corners disagree on
convexity. -/
def featureDistSquared (f1 f2 : Feature) : ℚ :=
  if f1.isCorner = true ∧ f2.isCorner = true ∧ f1.convex ≠ f2.convex then maxJsValue
  else
    let p1 := featureRepresentativePoint f1
    let p2 := featureRepresentativePoint f2
    let dx := p1.x - p2.x
    let dy := p1.y - p2.y
    dx * dx + dy * dy

/-- `DistanceVertex` (featureMapper.js lines 233-244), with the positions of the
two features in their lists added: JavaScript's `Set` tracks object identity, and
every list position is a distinct object. -/
structure DistanceVertex where
  distance : ℚ
  i1 : ℕ
  f1 : ProgressableFeature
  i2 : ℕ
  f2 : ProgressableFeature
deriving DecidableEq, Repr

/-- The candidate list of `doMapping` (featureMapper.js lines 303-311): all
cross pairs whose distance is not `Number.MAX_VALUE`, in loop order. -/
def distanceVertexList (features1 features2 : List ProgressableFeature) :
    List DistanceVertex :=
  features1.enum.flatMap fun i1f1 =>
    features2.enum.filterMap fun i2f2 =>
      let d := featureDistSquared i1f1.2.feature i2f2.2.feature
      if d ≠ maxJsValue then some ⟨d, i1f1.1, i1f1.2, i2f2.1, i2f2.2⟩ else none

/-- `MappingHelper` state (featureMapper.js lines 359-364): the progress-ordered
mapping under construction plus the used-feature sets (as position lists). -/
structure MappingHelper where
  mapping : List (ℚ × ℚ)
  usedF1 : List ℕ
  usedF2 : List ℕ
deriving DecidableEq, Repr

/-- `binarySearchBy` (featureMapper.js lines 334-345).  The JS `high` is
inclusive and may reach `-1`; here `hi = high + 1` is exclusive, keeping the
bounds in `ℕ`.  `.inl i` is the JS non-negative found index `i`; `.inr lo` is
the JS negative return `-(lo + 1)` encoding insertion point `lo`. -/
def binarySearchGo (mapping : List (ℚ × ℚ)) (key : ℚ) (lo hi : ℕ) : Sum ℕ ℕ :=
  if h : lo < hi then
    let mid := (lo + hi - 1) / 2
    let midVal := (mapping.getD mid (0, 0)).1
    if midVal < key then binarySearchGo mapping key (mid + 1) hi
    else if midVal > key then binarySearchGo mapping key lo mid
    else .inl mid
  else .inr lo
termination_by hi - lo
decreasing_by
  · omega
  · omega

/-- `binarySearchBy(mapping, key, item => item.first)`. -/
def binarySearchBy (mapping : List (ℚ × ℚ)) (key : ℚ) : Sum ℕ ℕ :=
  binarySearchGo mapping key 0 mapping.length

/-- The neighbor checks of `addMapping` (featureMapper.js lines 378-394), hoisted
out as the guard deciding whether the insertion happens: skip an insertion that
lands within epsilon of a circular neighbor on either axis, or (for n > 1) whose
target progress falls outside the circular range of its neighbors' targets. -/
def addMappingOk (helper : MappingHelper) (v : DistanceVertex) (insertionIndex : ℕ) : Bool :=
  let n := helper.mapping.length
  if 1 ≤ n then
    let before := helper.mapping.getD ((insertionIndex + n - 1) % n) (0, 0)
    let afterP := helper.mapping.getD (insertionIndex % n) (0, 0)
    if progressDistance v.f1.progress before.1 < DistanceEpsilon ∨
       progressDistance v.f1.progress afterP.1 < DistanceEpsilon ∨
       progressDistance v.f2.progress before.2 < DistanceEpsilon ∨
       progressDistance v.f2.progress afterP.2 < DistanceEpsilon then
      false
    else if 1 < n ∧ ¬ progressInRange v.f2.progress before.2 afterP.2 = true then
      false
    else true
  else true

/-- `MappingHelper.addMapping(f1, f2)` (featureMapper.js lines 366-399): skip if
either feature is used or its progress is already present, run the neighbor
checks, then insert at the sorted position and mark both features used. -/
def addMapping (helper : MappingHelper) (v : DistanceVertex) : MappingHelper :=
  if v.i1 ∈ helper.usedF1 ∨ v.i2 ∈ helper.usedF2 then helper
  else
    match binarySearchBy helper.mapping v.f1.progress with
    | .inl _ => helper
    | .inr insertionIndex =>
        if addMappingOk helper v insertionIndex then
          { mapping := helper.mapping.insertIdx insertionIndex (v.f1.progress, v.f2.progress),
            usedF1 := v.i1 :: helper.usedF1,
            usedF2 := v.i2 :: helper.usedF2 }
        else helper

/-- `IdentityMapping` (featureMapper.js line 331). -/
def IdentityMapping : List (ℚ × ℚ) := [(0, 0), (1/2, 1/2)]

/-- `doMapping(features1, features2)` (featureMapper.js lines 297-329): sort the
candidate list by distance (V8's sort is stable, as is `mergeSort`), special-case
zero and one candidates, otherwise greedily feed the helper. -/
def doMapping (features1 features2 : List ProgressableFeature) : List (ℚ × ℚ) :=
  match (distanceVertexList features1 features2).mergeSort
      (fun a b => decide (a.distance ≤ b.distance)) with
  | [] => IdentityMapping
  | [v] => [(v.f1.progress, v.f2.progress),
            (jsMod (v.f1.progress + 1/2) 1, jsMod (v.f2.progress + 1/2) 1)]
  | l => (l.foldl addMapping ⟨[], [], []⟩).mapping

/-- The corner filter of `featureMapper` (featureMapper.js lines 255-267). -/
def cornerFeatures (features : List ProgressableFeature) : List ProgressableFeature :=
  features.filter fun f => f.feature.isCorner

/-- The progress correspondence `featureMapper` builds and hands to the
`DoubleMapper` constructor (featureMapper.js lines 269-276). -/
def featureProgressMapping (features1 features2 : List ProgressableFeature) :
    List (ℚ × ℚ) :=
  doMapping (cornerFeatures features1) (cornerFeatures features2)

/-! ## floatMapping.js: `validateProgress`, `DoubleMapper`, `linearMap` -/

/-- The `validateProgress` loop (floatMapping.js lines 155-172): walk the list
with the cyclically previous value and the wrap counter, throwing on a value
outside `[0,1)`, a circular distance `≤ DistanceEpsilon` to the previous value,
or a second descent.  (`wraps + 1 > 1` mirrors `wraps++; if (wraps > 1)`.) -/
def validateProgressGo : ℚ → ℕ → List ℚ → Except String Unit
  | _, _, [] => .ok ()
  | prev, wraps, curr :: rest =>
      if curr < 0 ∨ curr ≥ 1 then .error "FloatMapping - Progress outside of range"
      else if progressDistance curr prev ≤ DistanceEpsilon then
        .error "FloatMapping - Progress repeats a value"
      else if curr < prev then
        if wraps + 1 > 1 then .error "FloatMapping - Progress wraps more than once"
        else validateProgressGo curr (wraps + 1) rest
      else validateProgressGo curr wraps rest

/-- `validateProgress(p)` (floatMapping.js lines 152-173): empty lists pass;
otherwise the loop starts with `prev = p[p.length - 1]` and `wraps = 0`. -/
def validateProgress (p : List ℚ) : Except String Unit :=
  match p.getLast? with
  | none => .ok ()
  | some lastv => validateProgressGo lastv 0 p

/-- The consecutive pairs `(prev, curr)` the `validateProgress` loop visits,
starting from a given previous value. -/
def chainPairs (prev : ℚ) : List ℚ → List (ℚ × ℚ)
  | [] => []
  | c :: rest => (prev, c) :: chainPairs c rest

/-- All cyclically consecutive pairs `(p[i-1], p[i])` of a progress list,
the pair `(last, first)` included. -/
def cyclicPairs (p : List ℚ) : List (ℚ × ℚ) :=
  match p.getLast? with
  | none => []
  | some lastv => chainPairs lastv p

/-- The three constraints of the claim, declaratively: all values in `[0,1)`,
every cyclically consecutive pair strictly farther apart than epsilon in
circular distance, and at most one descent (wrap) around the circle. -/
def validProgressSpec (p : List ℚ) : Prop :=
  (∀ v ∈ p, 0 ≤ v ∧ v < 1) ∧
  (∀ pr ∈ cyclicPairs p, progressDistance pr.2 pr.1 > DistanceEpsilon) ∧
  (cyclicPairs p).countP (fun pr => decide (pr.2 < pr.1)) ≤ 1

/-- floatMapping.js `DoubleMapper`: the two parallel progress arrays. -/
structure DoubleMapper where
  sourceValues : List ℚ
  targetValues : List ℚ
deriving DecidableEq, Repr

/-- The `DoubleMapper` constructor (floatMapping.js lines 113-124): split the
mapping pairs into the two arrays and validate each. -/
def DoubleMapper.make (mappings : List (ℚ × ℚ)) : Except String DoubleMapper := do
  let _ ← validateProgress (mappings.map Prod.fst)
  let _ ← validateProgress (mappings.map Prod.snd)
  .ok ⟨mappings.map Prod.fst, mappings.map Prod.snd⟩

/-- The fallback of `linearMap`'s segment search (floatMapping.js lines 77-86):
the first index minimizing the circular distance to `x` (the `Infinity` initial
minimum is the `none` state, which the first index always replaces).  The `0`
fallback for an empty list is unreachable: `linearMap` returns earlier. -/
def closestStartIndex (xValues : List ℚ) (x : ℚ) : ℕ :=
  (((List.range xValues.length).foldl (fun best i =>
      match best with
      | none => some (i, progressDistance x (xValues.getD i 0))
      | some (bi, bd) =>
          if progressDistance x (xValues.getD i 0) < bd then
            some (i, progressDistance x (xValues.getD i 0))
          else some (bi, bd)) none).map Prod.fst).getD 0

/-- The segment search of `linearMap` (floatMapping.js lines 67-73): the first
index whose circular segment contains `x`. -/
def findSegmentStartIndex (xValues : List ℚ) (x : ℚ) : Option ℕ :=
  (List.range xValues.length).find? fun i =>
    progressInRange x (xValues.getD i 0) (xValues.getD ((i + 1) % xValues.length) 0)

/-- The interpolation core of `linearMap` (floatMapping.js lines 67-96), after
the input checks and clamping: locate the bracketing segment, compute the
fractional position inside it (0.5 for segments shorter than 0.001), and map
that fraction onto the corresponding target segment. -/
def linearMapGo (xValues yValues : List ℚ) (x : ℚ) : ℚ :=
  let segmentStartIndex := (findSegmentStartIndex xValues x).getD (closestStartIndex xValues x)
  let segmentEndIndex := (segmentStartIndex + 1) % xValues.length
  let segmentSizeX :=
    positiveModulo (xValues.getD segmentEndIndex 0 - xValues.getD segmentStartIndex 0) 1
  let segmentSizeY :=
    positiveModulo (yValues.getD segmentEndIndex 0 - yValues.getD segmentStartIndex 0) 1
  let positionInSegment :=
    if segmentSizeX < 1/1000 then 1/2
    else positiveModulo (x - xValues.getD segmentStartIndex 0) 1 / segmentSizeX
  positiveModulo (yValues.getD segmentStartIndex 0 + segmentSizeY * positionInSegment) 1

/-- `linearMap(xValues, yValues, x)` (floatMapping.js lines 47-97).  The NaN
checks have no rational counterpart; the empty-array safety check returns 0;
a progress slightly outside `[0,1]` is clamped and beyond `DistanceEpsilon` of
the interval the function throws. -/
def linearMap (xValues yValues : List ℚ) (x : ℚ) : Except String ℚ :=
  if xValues.length = 0 ∨ yValues.length = 0 then .ok 0
  else if (x < 0 ∨ x > 1) ∧ (x < -DistanceEpsilon ∨ x > 1 + DistanceEpsilon) then
    .error "Invalid progress"
  else if x < 0 ∨ x > 1 then .ok (linearMapGo xValues yValues (max 0 (min 1 x)))
  else .ok (linearMapGo xValues yValues x)

/-- `DoubleMapper.map(x)` (floatMapping.js lines 127-129). -/
def DoubleMapper.map (dm : DoubleMapper) (x : ℚ) : Except String ℚ :=
  linearMap dm.sourceValues dm.targetValues x

/-- `DoubleMapper.mapBack(x)` (floatMapping.js lines 132-134). -/
def DoubleMapper.mapBack (dm : DoubleMapper) (x : ℚ) : Except String ℚ :=
  linearMap dm.targetValues dm.sourceValues x

/-- `featureMapper(features1, features2)` (featureMapper.js lines 253-286):
wrap the produced progress correspondence in a `DoubleMapper`. -/
def featureMapper (features1 features2 : List ProgressableFeature) :
    Except String DoubleMapper :=
  DoubleMapper.make (featureProgressMapping features1 features2)

/-- The forward size of the circular segment from `p[i]` to its cyclic successor,
exactly as `linearMap` computes it: `positiveModulo(p[(i+1) % n] - p[i], 1)`. -/
def segGap (p : List ℚ) (i : ℕ) : ℚ :=
  positiveModulo (p.getD ((i + 1) % p.length) 0 - p.getD i 0) 1

/-- The cumulative gap sum of the `m` segments following index `i` cyclically. -/
def cumGap (p : List ℚ) (i m : ℕ) : ℚ :=
  ∑ k ∈ Finset.range m, segGap p ((i + k) % p.length)

/-- Whether the progress list descends when stepping cyclically into index `k`
(`p[k] < p[(k + n - 1) % n]`) — the wrap predicate of `validateProgress` in
index form. -/
def descAt (p : List ℚ) (k : ℕ) : Bool :=
  decide (p.getD k 0 < p.getD ((k + p.length - 1) % p.length) 0)

/-- C3 counterexample input: a valid mapper whose middle source segment
(`0.2 → 0.2007`) is shorter than 0.001. -/
def mappingsCE : List (ℚ × ℚ) :=
  [(1/5, 1/5), (2007/10000, 2007/10000), (1/2, 1/2)]

/-- The counterexample mapper built from `mappingsCE`: both progress arrays are
`[0.2, 0.2007, 0.5]`. -/
def dmCE : DoubleMapper := ⟨[1/5, 2007/10000, 1/2], [1/5, 2007/10000, 1/2]⟩

/-- C3 witness mapper: two pairs, all segments of size 1/2. -/
def dmW : DoubleMapper := ⟨[0, 1/2], [0, 1/2]⟩

end Shapes

namespace Shapes

/-! # Theorems -/

/-- `jsMod _ 1` differs from its argument by an integer and lies in `(-1, 1)`. -/
theorem jsMod_one_bounds (b : ℚ) :
    (∃ z : ℤ, jsMod b 1 = b - z) ∧ -1 < jsMod b 1 ∧ jsMod b 1 < 1 := by
  unfold jsMod ratTrunc
  rw [div_one]
  refine ⟨⟨if 0 ≤ b then ⌊b⌋ else -⌊-b⌋, by split <;> push_cast <;> ring⟩, ?_, ?_⟩
  · split
    case isTrue h =>
      have h1 := Int.floor_le b
      have h2 := Int.lt_floor_add_one b
      linarith
    case isFalse h =>
      have h1 := Int.floor_le (-b)
      have h2 := Int.lt_floor_add_one (-b)
      push_cast
      linarith
  · split
    case isTrue h =>
      have h1 := Int.floor_le b
      have h2 := Int.lt_floor_add_one b
      linarith
    case isFalse h =>
      have h1 := Int.floor_le (-b)
      have h2 := Int.lt_floor_add_one (-b)
      push_cast
      linarith

/-- For modulus 1 (the only modulus the library uses), `positiveModulo`
is the fractional-part function. -/
theorem positiveModulo_one (a : ℚ) : positiveModulo a 1 = Int.fract a := by
  obtain ⟨⟨z, hz⟩, hlo, hhi⟩ := jsMod_one_bounds a
  have hfr : Int.fract a = Int.fract (jsMod a 1) :=
    Int.fract_eq_fract.mpr ⟨z, by rw [hz]; ring⟩
  unfold positiveModulo
  set r := jsMod a 1 with hr
  have step : jsMod (r + 1) 1 = (r + 1) - (⌊r + 1⌋ : ℚ) := by
    unfold jsMod ratTrunc
    rw [div_one, if_pos (by linarith)]
    ring
  rcases le_or_lt 0 r with h0 | h0
  · have hfl : ⌊r + 1⌋ = 1 := by
      rw [Int.floor_eq_iff]
      constructor
      · push_cast; linarith
      · push_cast; linarith
    rw [step, hfl, hfr]
    have : Int.fract r = r := Int.fract_eq_self.mpr ⟨h0, hhi⟩
    rw [this]
    push_cast
    ring
  · have hfl : ⌊r + 1⌋ = 0 := by
      rw [Int.floor_eq_iff]
      constructor
      · push_cast; linarith
      · push_cast; linarith
    rw [step, hfl, hfr]
    have h1 : Int.fract r = Int.fract (r + 1) :=
      Int.fract_eq_fract.mpr ⟨-1, by push_cast; ring⟩
    have h2 : Int.fract (r + 1) = r + 1 := Int.fract_eq_self.mpr ⟨by linarith, by linarith⟩
    rw [h1, h2]
    push_cast
    ring

/-- `positiveModulo _ 1` lands in `[0, 1)`. -/
theorem positiveModulo_one_nonneg (a : ℚ) : 0 ≤ positiveModulo a 1 := by
  rw [positiveModulo_one]; exact Int.fract_nonneg a

theorem positiveModulo_one_lt_one (a : ℚ) : positiveModulo a 1 < 1 := by
  rw [positiveModulo_one]; exact Int.fract_lt_one a

/-! ## Claim C9: straight-line factory -/

/-- **C9.** `Cubic.straightLine(x0,y0,x1,y1)` places its control points at the 1/3
and 2/3 fractions along the segment from `(x0,y0)` to `(x1,y1)` (i.e. at
`(1-f)·p0 + f·p1` for `f = 1/3, 2/3` in each coordinate), and concretely
`Cubic.straightLine(0,0,10,0).pointOnCurve(0.5) = (5,0)`. -/
theorem C9_straightLine_controls_and_midpoint :
    (∀ x0 y0 x1 y1 : ℚ,
      (Cubic.straightLine x0 y0 x1 y1).control0X = (1 - 1/3) * x0 + (1/3) * x1 ∧
      (Cubic.straightLine x0 y0 x1 y1).control0Y = (1 - 1/3) * y0 + (1/3) * y1 ∧
      (Cubic.straightLine x0 y0 x1 y1).control1X = (1 - 2/3) * x0 + (2/3) * x1 ∧
      (Cubic.straightLine x0 y0 x1 y1).control1Y = (1 - 2/3) * y0 + (2/3) * y1 ∧
      (Cubic.straightLine x0 y0 x1 y1).anchor0X = x0 ∧
      (Cubic.straightLine x0 y0 x1 y1).anchor0Y = y0 ∧
      (Cubic.straightLine x0 y0 x1 y1).anchor1X = x1 ∧
      (Cubic.straightLine x0 y0 x1 y1).anchor1Y = y1) ∧
    (Cubic.straightLine 0 0 10 0).pointOnCurve (1/2) = ⟨5, 0⟩ := by
  constructor
  · intro x0 y0 x1 y1
    simp [Cubic.straightLine, createCubic, interpolate]
  · simp only [Cubic.straightLine, createCubic, interpolate, Cubic.pointOnCurve]
    norm_num

/-! ## Claim C6: De Casteljau subdivision -/

/-- **C6.** For every cubic `c` and `t ∈ [0,1]`, `c.split(t)` returns `(c1, c2)`
with: `c1` starting at `c`'s first anchor, `c2` ending at `c`'s second anchor,
`c1`'s end anchor and `c2`'s start anchor both equal to `c.pointOnCurve(t)`, and
for every `s ∈ [0,1]`, `c1.pointOnCurve(s) = c.pointOnCurve(s*t)` and
`c2.pointOnCurve(s) = c.pointOnCurve(t + s*(1-t))`: the two halves reproduce the
original curve exactly. -/
theorem C6_split_deCasteljau (c : Cubic) (t : ℚ) (ht0 : 0 ≤ t) (ht1 : t ≤ 1) :
    ((c.split t).1.anchor0X = c.anchor0X ∧ (c.split t).1.anchor0Y = c.anchor0Y) ∧
    ((c.split t).2.anchor1X = c.anchor1X ∧ (c.split t).2.anchor1Y = c.anchor1Y) ∧
    ((c.split t).1.anchor1X = (c.pointOnCurve t).x ∧
     (c.split t).1.anchor1Y = (c.pointOnCurve t).y ∧
     (c.split t).2.anchor0X = (c.pointOnCurve t).x ∧
     (c.split t).2.anchor0Y = (c.pointOnCurve t).y) ∧
    (∀ s : ℚ, 0 ≤ s → s ≤ 1 →
      (c.split t).1.pointOnCurve s = c.pointOnCurve (s * t) ∧
      (c.split t).2.pointOnCurve s = c.pointOnCurve (t + s * (1 - t))) := by
  refine ⟨⟨rfl, rfl⟩, ⟨rfl, rfl⟩, ⟨rfl, rfl, rfl, rfl⟩, ?_⟩
  intro s _ _
  constructor
  · simp only [Cubic.split, Cubic.pointOnCurve, createCubic, Point.mk.injEq]
    constructor <;> ring
  · simp only [Cubic.split, Cubic.pointOnCurve, createCubic, Point.mk.injEq]
    constructor <;> ring

/-- Witness for C6 at a concrete cubic, `t = 1/2`, `s = 1/2`. -/
theorem C6_split_deCasteljau_witness :
    ((0:ℚ) ≤ 1/2 ∧ (1/2:ℚ) ≤ 1) ∧
    (((createCubic 0 0 1 2 3 1 4 0).split (1/2)).2.pointOnCurve (1/2) =
      (createCubic 0 0 1 2 3 1 4 0).pointOnCurve (1/2 + 1/2 * (1 - 1/2))) :=
  ⟨⟨by norm_num, by norm_num⟩,
    ((C6_split_deCasteljau (createCubic 0 0 1 2 3 1 4 0) (1/2)
        (by norm_num) (by norm_num)).2.2.2 (1/2) (by norm_num) (by norm_num)).2⟩

/-- Closed form of the `asCubics` fold when both registers are already populated. -/
theorem foldl_asCubicsStep (p : ℚ) (l : List CubicPair) (acc : List Cubic) (fc lc : Cubic) :
    l.foldl (asCubicsStep p) ⟨acc, some fc, some lc⟩ =
      ⟨acc ++ (lc :: l.map (fun q => interpCubic q p)).dropLast,
       some fc,
       some (((l.map (fun q => interpCubic q p)).getLast?).getD lc)⟩ := by
  induction l generalizing acc lc with
  | nil => simp [asCubicsStep]
  | cons q l' ih =>
      rw [List.foldl_cons]
      show List.foldl (asCubicsStep p) ⟨acc ++ [lc], some fc, some (interpCubic q p)⟩ l' = _
      rw [ih]
      simp only [List.map_cons, List.getLast?_cons, Option.getD_some, List.dropLast_cons₂,
        List.append_assoc, List.singleton_append]

/-- `asCubics` coincides with the spec-level extrapolation formula. -/
theorem asCubics_eq_spec (m : Morph) (p : ℚ) : m.asCubics p = m.asCubicsSpec p := by
  unfold Morph.asCubics Morph.asCubicsSpec Morph.forEachCubicSeq
  match hm : m.morphMatch with
  | [] => simp
  | q :: rest =>
      rw [List.foldl_cons,
        show asCubicsStep p ⟨[], none, none⟩ q =
          ⟨[], some (interpCubic q p), some (interpCubic q p)⟩ from rfl,
        foldl_asCubicsStep]
      simp only [List.map_cons, List.getLast?_cons, List.headD_cons, List.nil_append,
        List.isEmpty_cons, Bool.false_eq_true, if_false, Option.getD_some]
      simp [withEndAnchor, createCubic]

/-- Closed form of the point fold with an already-populated accumulator. -/
theorem foldl_expandBounds (pts : List (ℚ × ℚ)) (b : Bounds4) :
    pts.foldl expandBounds (some b) =
      some ⟨(pts.map Prod.fst).foldl min b.minX, (pts.map Prod.snd).foldl min b.minY,
            (pts.map Prod.fst).foldl max b.maxX, (pts.map Prod.snd).foldl max b.maxY⟩ := by
  induction pts generalizing b with
  | nil => simp
  | cons pt rest ih =>
      rw [List.foldl_cons]
      show List.foldl expandBounds
        (some ⟨min b.minX pt.1, min b.minY pt.2, max b.maxX pt.1, max b.maxY pt.2⟩) rest = _
      rw [ih]
      simp only [List.map_cons, List.foldl_cons]

/-- The outer `bounds` fold equals the point fold over the flattened point list. -/
theorem foldl_boundsStep (p : ℚ) (pairs : List CubicPair) (st : Option Bounds4) :
    pairs.foldl (boundsStep p) st =
      ((pairs.map (fun q => interpCubic q p)).flatMap cubicPoints).foldl expandBounds st := by
  induction pairs generalizing st with
  | nil => simp
  | cons q rest ih =>
      rw [List.foldl_cons, boundsStep, List.map_cons, List.flatMap_cons, List.foldl_append]
      exact ih _

/-- `bounds` coincides with the spec-level min/max of all extrapolated coordinates. -/
theorem bounds_eq_spec (m : Morph) (p : ℚ) : m.bounds p = m.boundsSpec p := by
  unfold Morph.bounds Morph.boundsSpec Morph.forEachCubicSeq
  match hm : m.morphMatch with
  | [] => simp
  | q :: rest =>
      simp only [List.isEmpty_cons, Bool.false_eq_true, if_false]
      rw [foldl_boundsStep, List.map_cons, List.flatMap_cons,
        show cubicPoints (interpCubic q p) =
          ((interpCubic q p).anchor0X, (interpCubic q p).anchor0Y) ::
            [((interpCubic q p).control0X, (interpCubic q p).control0Y),
             ((interpCubic q p).control1X, (interpCubic q p).control1Y),
             ((interpCubic q p).anchor1X, (interpCubic q p).anchor1Y)] from rfl,
        List.cons_append, List.foldl_cons,
        show expandBounds none ((interpCubic q p).anchor0X, (interpCubic q p).anchor0Y) =
          some ⟨(interpCubic q p).anchor0X, (interpCubic q p).anchor0Y,
                (interpCubic q p).anchor0X, (interpCubic q p).anchor0Y⟩ from rfl,
        foldl_expandBounds]

/-! ## Claim C2: `asCubics` / `bounds` are total, unclamped extrapolation -/

/-- **C2.** For every `Morph` (pair list) and every progress value `p` — with no
restriction whatsoever on `p`, in particular `p < 0` and `p > 1` — `asCubics`
and `bounds` are total functions (their embeddings carry no error case because
the source contains no `throw`), and they perform no clamping: `asCubics m p`
is exactly the list of pairwise linear extrapolations
`(1-p)·first + p·second` of all 8 coordinates of every matched pair (with the
final end anchor snapped to the extrapolated first start anchor), and
`bounds m p` is exactly the min/max over all those extrapolated coordinates. -/
theorem C2_queries_extrapolate (m : Morph) (p : ℚ) :
    m.asCubics p = m.asCubicsSpec p ∧ m.bounds p = m.boundsSpec p :=
  ⟨asCubics_eq_spec m p, bounds_eq_spec m p⟩

/-! ## Claim C5: `forEachCubic` versus `asCubics`

The claim states the visitor sequence of `forEachCubic(p, ...)` equals the list
returned by `asCubics(p)` coordinate for coordinate.  This is false: `asCubics`
snaps the final cubic's end anchor to the first cubic's start anchor (part_004
lines 148-162), while the `forEachCubic` loop (lines 177-183) performs no such
snap.  A single-pair morph whose cubic is not closed already separates them. -/

/-- **C5 counterexample.** At progress 0, the visitor sequence of `forEachCubic`
differs from `asCubics`: the latter's only cubic has its end anchor snapped to
`(0,0)` while the visitor saw end anchor `(1,0)`. -/
theorem C5_counterexample :
    morphOpen.forEachCubicSeq 0 ≠ morphOpen.asCubics 0 := by
  intro h
  rw [asCubics_eq_spec] at h
  simp only [morphOpen, Morph.forEachCubicSeq, Morph.asCubicsSpec, List.map_cons, List.map_nil,
    List.getLast?_cons, List.getLast?_nil, Option.getD_none, List.headD_cons, List.dropLast_single,
    List.nil_append, interpCubic, interpolate, Cubic.straightLine, createCubic, withEndAnchor,
    List.cons.injEq, Cubic.mk.injEq, and_true, true_and] at h
  norm_num at h

/-- **C5 (amended).** For every `Morph` and every progress `p`, the visitor
sequence of `forEachCubic(p, ...)` has the same length as `asCubics(p)` and agrees
with it coordinate for coordinate on every cubic except the last: the last cubic
returned by `asCubics` is the last visited cubic with its end anchor replaced by
the first visited cubic's start anchor.  In particular the two sequences are equal
whenever that end anchor already equals that start anchor (as the spec's intent —
"does the same without allocating" — assumes). -/
theorem C5_forEachCubic_vs_asCubics (m : Morph) (p : ℚ) :
    (m.asCubics p).length = (m.forEachCubicSeq p).length ∧
    (∀ i, i + 1 < (m.forEachCubicSeq p).length →
      (m.asCubics p).getD i defaultCubic = (m.forEachCubicSeq p).getD i defaultCubic) ∧
    (∀ lastC, (m.forEachCubicSeq p).getLast? = some lastC →
      (m.asCubics p).getLast? = some (withEndAnchor lastC
        ((m.forEachCubicSeq p).headD defaultCubic).anchor0X
        ((m.forEachCubicSeq p).headD defaultCubic).anchor0Y)) ∧
    (∀ lastC, (m.forEachCubicSeq p).getLast? = some lastC →
      lastC.anchor1X = ((m.forEachCubicSeq p).headD defaultCubic).anchor0X →
      lastC.anchor1Y = ((m.forEachCubicSeq p).headD defaultCubic).anchor0Y →
      m.asCubics p = m.forEachCubicSeq p) := by
  rw [asCubics_eq_spec]
  unfold Morph.asCubicsSpec
  cases hl : (m.forEachCubicSeq p).getLast? with
  | none =>
      have : m.forEachCubicSeq p = [] := List.getLast?_eq_none.mp hl
      rw [this]
      refine ⟨rfl, ?_, ?_, ?_⟩
      · intro i hi; simp at hi
      · intro lastC h; simp at h
      · intro lastC h; simp at h
  | some lastC =>
      obtain ⟨ys, hys⟩ := List.getLast?_eq_some_iff.mp hl
      rw [hys]
      simp only [List.getLast?_concat, List.dropLast_concat]
      refine ⟨?_, ?_, ?_, ?_⟩
      · simp
      · intro i hi
        rw [List.length_append, List.length_singleton] at hi
        have hlt : i < ys.length := by omega
        rw [List.getD_append _ _ _ _ hlt, List.getD_append _ _ _ _ hlt]
      · intro lastC' h
        cases h
        rfl
      · intro lastC' h h1 h2
        cases h
        rw [← h1, ← h2]
        show ys ++ [withEndAnchor lastC lastC.anchor1X lastC.anchor1Y] = _
        rfl

/-- Witness for the amended C5 on a closed morph at `p = 1/2`: `asCubics` and the
visitor sequence coincide exactly. -/
theorem C5_forEachCubic_vs_asCubics_witness :
    morphClosed.asCubics (1/2) = morphClosed.forEachCubicSeq (1/2) := by
  refine (C5_forEachCubic_vs_asCubics morphClosed (1/2)).2.2.2
    (Cubic.straightLine 1 0 0 0) ?_ ?_ ?_
  · show (morphClosed.morphMatch.map fun pair => interpCubic pair (1/2)).getLast? = _
    simp only [morphClosed, List.map_cons, List.map_nil, List.getLast?_cons, List.getLast?_nil,
      Option.getD_none, Option.getD_some, Option.some.injEq]
    simp only [interpCubic, interpolate, Cubic.straightLine, createCubic, Cubic.mk.injEq]
    norm_num
  · show (Cubic.straightLine 1 0 0 0).anchor1X = _
    simp only [morphClosed, Morph.forEachCubicSeq, List.map_cons, List.headD_cons]
    simp only [interpCubic, interpolate, Cubic.straightLine, createCubic]
    norm_num
  · show (Cubic.straightLine 1 0 0 0).anchor1Y = _
    simp only [morphClosed, Morph.forEachCubicSeq, List.map_cons, List.headD_cons]
    simp only [interpCubic, interpolate, Cubic.straightLine, createCubic]
    norm_num

/-! ## Claim C1: RoundedPolygon continuity invariant -/

/-- `flattenStep` preserves the flatten-loop invariant: end-anchor merges never
touch a start anchor, and the registers fill together. -/
theorem flattenStep_inv (st : FlattenState) (c : Cubic) (h : FlattenInv st) :
    FlattenInv (flattenStep st c) := by
  obtain ⟨h1, h2, h3⟩ := h
  unfold flattenStep
  by_cases hz : c.zeroLength
  · simp only [hz, Bool.not_true, Bool.false_eq_true, if_false]
    cases hlc : st.lastCubic with
    | none =>
        show FlattenInv st
        exact ⟨h1, h2, h3⟩
    | some lastC =>
        refine ⟨?_, ?_, ?_⟩
        · intro hcontra; simp at hcontra
        · intro hf
          have := h2 hf
          rw [hlc] at this
          cases this
        · intro lc fc hlc' hfc hcs
          simp only [Option.some.injEq] at hlc'
          subst hlc'
          have := h3 lastC fc hlc hfc hcs
          exact ⟨this.1, this.2⟩
  · simp only [hz, Bool.not_false, if_true]
    refine ⟨?_, ?_, ?_⟩
    · intro hcontra; simp at hcontra
    · intro hcontra; simp at hcontra
    · intro lc fc hl hf hcs
      simp only [Option.some.injEq] at hl hf
      subst hl
      rw [List.append_eq_nil] at hcs
      have hlast : st.lastCubic = none := by
        cases hlcv : st.lastCubic
        · rfl
        · rw [hlcv] at hcs; simp [Option.toList] at hcs
      have hfirst : st.firstCubic = none := (h1 hlast).2
      rw [hfirst] at hf
      simp only [Option.getD_none] at hf
      subst hf
      exact ⟨rfl, rfl⟩

/-- The flatten-loop invariant holds after folding any cubic list. -/
theorem foldl_flattenStep_inv (l : List Cubic) (st : FlattenState) (h : FlattenInv st) :
    FlattenInv (l.foldl flattenStep st) := by
  induction l generalizing st with
  | nil => exact h
  | cons c rest ih => exact ih _ (flattenStep_inv st c h)

/-- A length-1 flatten output is always exactly closed: its end anchor equals its
start anchor (this is why `#validateContinuity` may skip lists of length ≤ 1). -/
theorem flattenCubics_single (features : List Feature) (center : Point) (c : Cubic)
    (h : flattenCubics features center = [c]) :
    c.anchor1X = c.anchor0X ∧ c.anchor1Y = c.anchor0Y := by
  unfold flattenCubics at h
  cases he : features.isEmpty
  · rw [he] at h
    simp only [Bool.false_eq_true, if_false] at h
    have hinv : FlattenInv ((features.flatMap Feature.cubics).foldl flattenStep ⟨[], none, none⟩) :=
      foldl_flattenStep_inv _ _
        ⟨fun _ => ⟨rfl, rfl⟩, fun _ => rfl, by intro lc fc h1 _ _; cases h1⟩
    set st := (features.flatMap Feature.cubics).foldl flattenStep ⟨[], none, none⟩ with hst
    obtain ⟨h1, h2, h3⟩ := hinv
    cases hl : st.lastCubic with
    | none =>
        rw [hl] at h h1
        have := (h1 rfl).1
        rw [this] at h
        cases h
    | some lastC =>
        cases hf : st.firstCubic with
        | none =>
            have := h2 hf
            rw [hl] at this
            cases this
        | some firstC =>
            rw [hl, hf] at h
            cases hcs : st.cubics with
            | nil =>
                rw [hcs] at h
                simp only [List.nil_append, List.cons.injEq, and_true] at h
                obtain ⟨ha1, ha2⟩ := h3 lastC firstC hl hf hcs
                subst h
                exact ⟨ha1.symm, ha2.symm⟩
            | cons d ds =>
                rw [hcs] at h
                exact absurd (congrArg List.length h)
                  (by simp [List.length_append])
  · rw [he] at h
    simp only [if_true] at h
    simp only [List.cons.injEq, and_true] at h
    subst h
    exact ⟨rfl, rfl⟩

/-- Reading off the index form of a passed continuity validation (length ≥ 2). -/
theorem validateContinuity_true (cs : List Cubic) (hn : 2 ≤ cs.length)
    (h : validateContinuity cs = true) :
    ∀ i < cs.length,
      |(cs.getD i defaultCubic).anchor0X -
         (cs.getD ((i + cs.length - 1) % cs.length) defaultCubic).anchor1X| ≤ DistanceEpsilon ∧
      |(cs.getD i defaultCubic).anchor0Y -
         (cs.getD ((i + cs.length - 1) % cs.length) defaultCubic).anchor1Y| ≤ DistanceEpsilon := by
  intro i hi
  unfold validateContinuity at h
  rw [if_neg (by omega)] at h
  have hm := List.all_eq_true.mp h i (List.mem_range.mpr hi)
  simp only [decide_eq_true_eq, not_or, not_lt] at hm
  exact hm

/-- **C1.** Every successfully constructed `RoundedPolygon` satisfies the
C0-continuity invariant on its flattened cubic list — for every index taken
cyclically (including the last-to-first pair), `cubics[i].anchor1` matches
`cubics[i+1].anchor0` within `DistanceEpsilon` in each coordinate — and when the
flattened list violates this beyond epsilon, construction throws. -/
theorem C1_polygon_continuity (features : List Feature) (center : Point) :
    (∀ cs, buildPolygonCubics features center = .ok cs → isContiguous cs) ∧
    (¬ isContiguous (flattenCubics features center) →
      ∃ e, buildPolygonCubics features center = .error e) := by
  have main : ∀ cs, buildPolygonCubics features center = .ok cs → isContiguous cs := by
    intro cs hok
    unfold buildPolygonCubics at hok
    by_cases hv : validateContinuity (flattenCubics features center) = true
    · rw [if_pos hv] at hok
      cases hok
      intro i hi
      rcases Nat.lt_or_ge (flattenCubics features center).length 2 with hsmall | hbig
      · have hlen1 : (flattenCubics features center).length = 1 := by omega
        obtain ⟨c, hc⟩ := List.length_eq_one.mp hlen1
        have hclosed := flattenCubics_single features center c hc
        have hi0 : i = 0 := by omega
        subst hi0
        rw [hc]
        simp only [List.getD_cons_zero, List.length_singleton, Nat.mod_self]
        rw [hclosed.1, hclosed.2]
        simp [DistanceEpsilon]
      · have hval := validateContinuity_true _ hbig hv
        set n := (flattenCubics features center).length with hnn
        have hj : (i + 1) % n < n := Nat.mod_lt _ (by omega)
        obtain ⟨h1, h2⟩ := hval ((i + 1) % n) hj
        have harith : ((i + 1) % n + n - 1) % n = i := by
          have h0 : (i + 1) % n + n - 1 = (i + 1) % n + (n - 1) := by omega
          rw [h0]
          have hswap : ((i + 1) + (n - 1)) % n = ((i + 1) % n + (n - 1)) % n := by
            conv_lhs => rw [Nat.add_mod]
            rw [Nat.mod_eq_of_lt (show n - 1 < n by omega)]
          rw [← hswap, show (i + 1) + (n - 1) = i + n by omega, Nat.add_mod_right,
            Nat.mod_eq_of_lt hi]
        rw [harith] at h1 h2
        exact ⟨by rw [abs_sub_comm]; exact h1, by rw [abs_sub_comm]; exact h2⟩
    · rw [if_neg hv] at hok
      cases hok
  refine ⟨main, ?_⟩
  intro hviol
  cases hbuild : buildPolygonCubics features center with
  | ok cs =>
      exfalso
      have hcontig := main cs hbuild
      unfold buildPolygonCubics at hbuild
      by_cases hv : validateContinuity (flattenCubics features center) = true
      · rw [if_pos hv] at hbuild
        cases hbuild
        exact hviol hcontig
      · rw [if_neg hv] at hbuild
        cases hbuild
  | error e => exact ⟨e, rfl⟩

/-- Witness for C1: a concrete two-edge polygon (out and back along a segment)
constructs successfully and its flattened list is contiguous. -/
theorem C1_polygon_continuity_witness :
    buildPolygonCubics
        [Feature.edge [Cubic.straightLine 0 0 1 0], Feature.edge [Cubic.straightLine 1 0 0 0]]
        ⟨1/2, 0⟩ =
      .ok [Cubic.straightLine 0 0 1 0, Cubic.straightLine 1 0 0 0] ∧
    isContiguous [Cubic.straightLine 0 0 1 0, Cubic.straightLine 1 0 0 0] := by
  have hz1 : (Cubic.straightLine 0 0 1 0).zeroLength = false := by
    simp only [Cubic.zeroLength, Cubic.straightLine, createCubic, decide_eq_false_iff_not,
      not_and, not_lt]
    intro h
    norm_num [DistanceEpsilon] at h
  have hz2 : (Cubic.straightLine 1 0 0 0).zeroLength = false := by
    simp only [Cubic.zeroLength, Cubic.straightLine, createCubic, decide_eq_false_iff_not,
      not_and, not_lt]
    intro h
    norm_num [DistanceEpsilon] at h
  have hflat : flattenCubics
      [Feature.edge [Cubic.straightLine 0 0 1 0], Feature.edge [Cubic.straightLine 1 0 0 0]]
      ⟨1/2, 0⟩ = [Cubic.straightLine 0 0 1 0, Cubic.straightLine 1 0 0 0] := by
    simp only [flattenCubics, List.isEmpty_cons, Bool.false_eq_true, if_false,
      List.flatMap_cons, List.flatMap_nil, Feature.cubics, List.append_nil,
      List.singleton_append, List.cons_append, List.nil_append,
      List.foldl_cons, List.foldl_nil, flattenStep, hz1, hz2, Bool.not_false, if_true,
      Option.getD_none, Option.toList_none, Option.toList_some]
    rfl
  have hvc : validateContinuity [Cubic.straightLine 0 0 1 0, Cubic.straightLine 1 0 0 0] =
      true := by
    unfold validateContinuity
    rw [if_neg (by simp)]
    rw [show List.range ([Cubic.straightLine 0 0 1 0, Cubic.straightLine 1 0 0 0].length) =
      [0, 1] from rfl]
    simp only [List.all_cons, List.all_nil, Bool.and_true, Bool.and_eq_true,
      decide_eq_true_eq]
    norm_num [Cubic.straightLine, createCubic, interpolate, DistanceEpsilon]
  have hb : buildPolygonCubics
      [Feature.edge [Cubic.straightLine 0 0 1 0], Feature.edge [Cubic.straightLine 1 0 0 0]]
      ⟨1/2, 0⟩ =
      .ok [Cubic.straightLine 0 0 1 0, Cubic.straightLine 1 0 0 0] := by
    unfold buildPolygonCubics
    rw [hflat, if_pos hvc]
  exact ⟨hb, (C1_polygon_continuity _ _).1 _ hb⟩

/-! ## Claim C7: degenerate polygon outline progress

The claim says a zero-total-length polygon maps **every** entry of the built
outline-progress array to 0.  The guard does map every entry to 0, but the very
next line (measuredPolygon.js line 554) overwrites the final entry with `1.0`,
so the built array is `[0, …, 0, 1]`, not all zeros. -/

/-- **C7 counterexample.** A one-edge degenerate polygon measured by the
zero measurer builds the outline-progress array `[0, 1]`, whose last entry is
not 0. -/
theorem C7_counterexample :
    measurePolygonProgress zeroMeasurer [Feature.edge [Cubic.emptyAt 0 0]] = .ok [0, 1] ∧
    ¬ (∀ e ∈ [(0:ℚ), 1], e = 0) := by
  constructor
  · unfold measurePolygonProgress featureCubicsList cumulativeMeasuresGo
    simp only [List.flatMap_cons, List.flatMap_nil, Feature.cubics, List.append_nil]
    norm_num [zeroMeasurer, cumulativeMeasuresGo, Except.map, normalizeOutlineProgress]
  · intro h
    have := h 1 (by simp)
    norm_num at this

/-- **C7 (amended).** When the measured total length is 0, every entry of the
outline-progress array built by `measurePolygon` **except the last** is 0; the
final entry is overwritten to 1 (measuredPolygon.js line 554). -/
theorem C7_zero_total_progress (measurer : Measurer) (features : List Feature) (ms : List ℚ)
    (h : cumulativeMeasuresGo measurer.measureCubic 0 [0] (featureCubicsList features) =
      .ok (ms, 0)) :
    measurePolygonProgress measurer features =
      .ok (List.replicate (ms.length - 1) 0 ++ [1]) := by
  unfold measurePolygonProgress
  rw [h]
  show Except.ok (normalizeOutlineProgress ms 0) = _
  unfold normalizeOutlineProgress
  simp only [if_pos rfl, eq_self_iff_true, if_true]
  rw [List.map_const', List.dropLast_replicate]

/-- Witness for the amended C7: a two-edge degenerate polygon builds `[0, 0, 1]`. -/
theorem C7_zero_total_progress_witness :
    measurePolygonProgress zeroMeasurer
        [Feature.edge [Cubic.emptyAt 0 0], Feature.edge [Cubic.emptyAt 1 1]] =
      .ok [0, 0, 1] := by
  have h : cumulativeMeasuresGo zeroMeasurer.measureCubic 0 [0]
      (featureCubicsList [Feature.edge [Cubic.emptyAt 0 0], Feature.edge [Cubic.emptyAt 1 1]]) =
      .ok ([0, 0, 0], 0) := by
    unfold featureCubicsList cumulativeMeasuresGo
    simp only [List.flatMap_cons, List.flatMap_nil, Feature.cubics, List.append_nil,
      List.cons_append, List.nil_append]
    norm_num [zeroMeasurer, cumulativeMeasuresGo]
  have := C7_zero_total_progress zeroMeasurer
    [Feature.edge [Cubic.emptyAt 0 0], Feature.edge [Cubic.emptyAt 1 1]] [0, 0, 0] h
  simpa using this

/-! ## Claim C10: `cutAndShift` guards -/

/-- **C10.** `MeasuredPolygon.cutAndShift(cuttingPoint)` throws for every cutting
point outside `[0, 1]`; for `0 ≤ cuttingPoint < DistanceEpsilon` it returns the
receiver itself unchanged; and when no cubic's progress range contains the
cutting point (the source's `findIndex` misses) while `|cuttingPoint - 1| <
DistanceEpsilon`, it likewise returns the receiver unchanged. -/
theorem C10_cutAndShift_guards (measurer : Measurer) (mp : MeasuredPolygon)
    (cuttingPoint : ℚ) :
    (cuttingPoint < 0 ∨ cuttingPoint > 1 →
      ∃ e, MeasuredPolygon.cutAndShift measurer mp cuttingPoint = .error e) ∧
    (0 ≤ cuttingPoint → cuttingPoint < DistanceEpsilon →
      MeasuredPolygon.cutAndShift measurer mp cuttingPoint = .ok mp) ∧
    (0 ≤ cuttingPoint → cuttingPoint ≤ 1 →
      mp.cubics.findIdx? (fun it =>
        decide (cuttingPoint ≥ it.startOutlineProgress ∧
                cuttingPoint ≤ it.endOutlineProgress)) = none →
      |cuttingPoint - 1| < DistanceEpsilon →
      MeasuredPolygon.cutAndShift measurer mp cuttingPoint = .ok mp) := by
  refine ⟨?_, ?_, ?_⟩
  · intro h
    unfold MeasuredPolygon.cutAndShift
    rw [if_pos h]
    exact ⟨_, rfl⟩
  · intro h0 h1
    unfold MeasuredPolygon.cutAndShift
    rw [if_neg ?_, if_pos h1]
    push_neg
    constructor
    · exact h0
    · have : DistanceEpsilon ≤ 1 := by norm_num [DistanceEpsilon]
      linarith
  · intro h0 h1 hfind hnear
    unfold MeasuredPolygon.cutAndShift
    rw [if_neg (by push_neg; exact ⟨h0, h1⟩)]
    by_cases hsmall : cuttingPoint < DistanceEpsilon
    · rw [if_pos hsmall]
    · rw [if_neg hsmall, hfind, if_pos hnear]

/-- Witness for C10 at a concrete one-cubic polygon: cutting point 2 throws,
cutting point 0 and cutting point 0.99996 (past the cubic's range but within
epsilon of 1) return the receiver. -/
theorem C10_cutAndShift_guards_witness :
    (∃ e, MeasuredPolygon.cutAndShift zeroMeasurer measuredPolygonW 2 = .error e) ∧
    MeasuredPolygon.cutAndShift zeroMeasurer measuredPolygonW 0 = .ok measuredPolygonW ∧
    MeasuredPolygon.cutAndShift zeroMeasurer measuredPolygonW (24999/25000) =
      .ok measuredPolygonW := by
  refine ⟨(C10_cutAndShift_guards zeroMeasurer measuredPolygonW 2).1 (by norm_num),
    (C10_cutAndShift_guards zeroMeasurer measuredPolygonW 0).2.1 le_rfl
      (by norm_num [DistanceEpsilon]),
    (C10_cutAndShift_guards zeroMeasurer measuredPolygonW (24999/25000)).2.2
      (by norm_num) (by norm_num) ?_
      (by rw [abs_lt]; constructor <;> norm_num [DistanceEpsilon])⟩
  show List.findIdx? _ [(⟨Cubic.straightLine 0 0 1 0, 0, 19999/20000, 1⟩ : MeasuredCubic)] = none
  rw [List.findIdx?_cons]
  rw [if_neg ?_, List.findIdx?_nil]
  simp only [decide_eq_true_eq, not_and, not_le, ge_iff_le]
  intro h
  norm_num

/-! ## Claim C4: convex corners never pair with concave corners -/

/-- Anything `addMapping` adds to the mapping is the progress pair of its
argument vertex. -/
theorem addMapping_mapping_mem (helper : MappingHelper) (v : DistanceVertex) :
    ∀ pr ∈ (addMapping helper v).mapping,
      pr ∈ helper.mapping ∨ pr = (v.f1.progress, v.f2.progress) := by
  intro pr hpr
  unfold addMapping at hpr
  split at hpr
  · exact Or.inl hpr
  · split at hpr
    · exact Or.inl hpr
    · rename_i insertionIndex hsearch
      split at hpr
      · by_cases hle : insertionIndex ≤ helper.mapping.length
        · rcases (List.mem_insertIdx hle).mp hpr with h | h
          · exact Or.inr h
          · exact Or.inl h
        · rw [List.insertIdx_of_length_lt _ _ _ (by omega)] at hpr
          exact Or.inl hpr
      · exact Or.inl hpr

/-- Everything in the mapping after the helper fold comes from the initial
mapping or from the progress pair of some fed vertex. -/
theorem foldl_addMapping_mem (l : List DistanceVertex) (helper : MappingHelper) :
    ∀ pr ∈ (l.foldl addMapping helper).mapping,
      pr ∈ helper.mapping ∨ ∃ v ∈ l, pr = (v.f1.progress, v.f2.progress) := by
  induction l generalizing helper with
  | nil => exact fun pr hpr => Or.inl hpr
  | cons v rest ih =>
      intro pr hpr
      rw [List.foldl_cons] at hpr
      rcases ih (addMapping helper v) pr hpr with h | ⟨w, hw, hpr'⟩
      · rcases addMapping_mapping_mem helper v pr h with h' | h'
        · exact Or.inl h'
        · exact Or.inr ⟨v, List.mem_cons_self v rest, h'⟩
      · exact Or.inr ⟨w, List.mem_cons_of_mem v hw, hpr'⟩

/-- Structure of a candidate vertex: its distance passed the
`Number.MAX_VALUE` filter, and both features come from the input lists. -/
theorem mem_distanceVertexList (features1 features2 : List ProgressableFeature)
    (v : DistanceVertex) (hv : v ∈ distanceVertexList features1 features2) :
    featureDistSquared v.f1.feature v.f2.feature ≠ maxJsValue ∧
    v.f1 ∈ features1 ∧ v.f2 ∈ features2 := by
  unfold distanceVertexList at hv
  rw [List.mem_flatMap] at hv
  obtain ⟨i1f1, h1, hv⟩ := hv
  rw [List.mem_filterMap] at hv
  obtain ⟨i2f2, h2, heq⟩ := hv
  simp only [] at heq
  split at heq
  · rename_i hne
    cases heq
    exact ⟨hne, List.snd_mem_of_mem_enum h1, List.snd_mem_of_mem_enum h2⟩
  · cases heq

/-- Among corner-filtered features, every candidate pair agrees on convexity:
a disagreeing pair is assigned `Number.MAX_VALUE` and filtered out. -/
theorem distanceVertexList_convex_agree (features1 features2 : List ProgressableFeature) :
    ∀ v ∈ distanceVertexList (cornerFeatures features1) (cornerFeatures features2),
      v.f1.feature.convex = v.f2.feature.convex := by
  intro v hv
  obtain ⟨hne, hm1, hm2⟩ := mem_distanceVertexList _ _ v hv
  have hc1 : v.f1.feature.isCorner = true := (List.mem_filter.mp hm1).2
  have hc2 : v.f2.feature.isCorner = true := (List.mem_filter.mp hm2).2
  by_contra hneq
  exact hne (by unfold featureDistSquared; rw [if_pos ⟨hc1, hc2, hneq⟩])

/-- **C4.** The correspondence step never pairs a convex corner with a concave
one: a candidate pair of corners disagreeing on the convex flag is assigned
`Number.MAX_VALUE` and never enters the candidate list, every surviving
candidate agrees on convexity, and every pair the produced correspondence emits
is either a synthetic identity pair or derived (directly or as the antipodal
pair of the single-candidate case) from a convexity-agreeing candidate. -/
theorem C4_no_convex_concave_pairing (features1 features2 : List ProgressableFeature) :
    (∀ f1 f2 : Feature, f1.isCorner = true → f2.isCorner = true →
      f1.convex ≠ f2.convex → featureDistSquared f1 f2 = maxJsValue) ∧
    (∀ v ∈ distanceVertexList (cornerFeatures features1) (cornerFeatures features2),
      v.f1.feature.convex = v.f2.feature.convex) ∧
    (∀ pr ∈ featureProgressMapping features1 features2,
      pr ∈ IdentityMapping ∨
      ∃ v ∈ distanceVertexList (cornerFeatures features1) (cornerFeatures features2),
        v.f1.feature.convex = v.f2.feature.convex ∧
        (pr = (v.f1.progress, v.f2.progress) ∨
         pr = (jsMod (v.f1.progress + 1/2) 1, jsMod (v.f2.progress + 1/2) 1))) := by
  refine ⟨?_, distanceVertexList_convex_agree features1 features2, ?_⟩
  · intro f1 f2 hc1 hc2 hneq
    unfold featureDistSquared
    rw [if_pos ⟨hc1, hc2, hneq⟩]
  · intro pr hpr
    unfold featureProgressMapping doMapping at hpr
    cases hsort : (distanceVertexList (cornerFeatures features1)
        (cornerFeatures features2)).mergeSort
        (fun a b => decide (a.distance ≤ b.distance)) with
    | nil =>
        rw [hsort] at hpr
        exact Or.inl hpr
    | cons v tail =>
        cases tail with
        | nil =>
            rw [hsort] at hpr
            have hvmem : v ∈ distanceVertexList (cornerFeatures features1)
                (cornerFeatures features2) := by
              have hm : v ∈ (distanceVertexList (cornerFeatures features1)
                  (cornerFeatures features2)).mergeSort
                  (fun a b => decide (a.distance ≤ b.distance)) := by
                rw [hsort]; exact List.mem_cons_self v []
              exact List.mem_mergeSort.mp hm
            have hagree := distanceVertexList_convex_agree features1 features2 v hvmem
            have hpr' : pr ∈ [(v.f1.progress, v.f2.progress),
                (jsMod (v.f1.progress + 1/2) 1, jsMod (v.f2.progress + 1/2) 1)] := hpr
            have hpr2 : pr = (v.f1.progress, v.f2.progress) ∨
                pr = (jsMod (v.f1.progress + 1/2) 1, jsMod (v.f2.progress + 1/2) 1) := by
              simpa using hpr'
            rcases hpr2 with h | h
            · exact Or.inr ⟨v, hvmem, hagree, Or.inl h⟩
            · exact Or.inr ⟨v, hvmem, hagree, Or.inr h⟩
        | cons w tail2 =>
            rw [hsort] at hpr
            have hpr' : pr ∈ ((v :: w :: tail2).foldl addMapping
                (⟨[], [], []⟩ : MappingHelper)).mapping := hpr
            rcases foldl_addMapping_mem (v :: w :: tail2) ⟨[], [], []⟩ pr hpr' with
              h | ⟨u, hul, hpru⟩
            · cases h
            · have humem : u ∈ distanceVertexList (cornerFeatures features1)
                  (cornerFeatures features2) := by
                have hm : u ∈ (distanceVertexList (cornerFeatures features1)
                    (cornerFeatures features2)).mergeSort
                    (fun a b => decide (a.distance ≤ b.distance)) := by
                  rw [hsort]; exact hul
                exact List.mem_mergeSort.mp hm
              exact Or.inr ⟨u, humem,
                distanceVertexList_convex_agree features1 features2 u humem, Or.inl hpru⟩

/-- Witness for C4: two single-corner lists of opposite convexity produce no
candidate at all, so the identity mapping is returned, and the theorem applies
to its first pair. -/
theorem C4_no_convex_concave_pairing_witness :
    featureProgressMapping [⟨0, Feature.corner [] true⟩] [⟨1/4, Feature.corner [] false⟩] =
      IdentityMapping ∧
    ((0, 0) ∈ IdentityMapping ∨
      ∃ v ∈ distanceVertexList (cornerFeatures [⟨0, Feature.corner [] true⟩])
          (cornerFeatures [⟨1/4, Feature.corner [] false⟩]),
        v.f1.feature.convex = v.f2.feature.convex ∧
        (((0:ℚ), (0:ℚ)) = (v.f1.progress, v.f2.progress) ∨
         ((0:ℚ), (0:ℚ)) = (jsMod (v.f1.progress + 1/2) 1, jsMod (v.f2.progress + 1/2) 1))) := by
  have hmap : featureProgressMapping [⟨0, Feature.corner [] true⟩]
      [⟨1/4, Feature.corner [] false⟩] = IdentityMapping := by
    have hd : featureDistSquared (Feature.corner [] true) (Feature.corner [] false) =
        maxJsValue := by
      unfold featureDistSquared
      rw [if_pos ⟨rfl, rfl, by simp [Feature.convex]⟩]
    unfold featureProgressMapping cornerFeatures doMapping distanceVertexList
    simp only [List.filter_cons, Feature.isCorner, if_true, List.filter_nil, List.enum,
      List.enumFrom, List.flatMap_cons, List.flatMap_nil, List.filterMap_cons,
      List.filterMap_nil, hd, ne_eq, not_true_eq_false, if_false, List.append_nil,
      List.mergeSort_nil]
  refine ⟨hmap, ?_⟩
  exact (C4_no_convex_concave_pairing [⟨0, Feature.corner [] true⟩]
      [⟨1/4, Feature.corner [] false⟩]).2.2 (0, 0)
    (by rw [hmap]; simp [IdentityMapping])

/-! ## Claim C8: `DoubleMapper` construction validation -/

/-- Characterization of the `validateProgress` loop for the reachable wrap
counts (`wraps ≤ 1`): it succeeds exactly when every remaining value is in
`[0,1)`, every visited pair is farther apart than epsilon, and the accumulated
wrap count stays at most one. -/
theorem validateProgressGo_ok_iff (rest : List ℚ) :
    ∀ (prev : ℚ) (wraps : ℕ), wraps ≤ 1 →
    (validateProgressGo prev wraps rest = .ok () ↔
      ((∀ v ∈ rest, 0 ≤ v ∧ v < 1) ∧
       (∀ pr ∈ chainPairs prev rest, progressDistance pr.2 pr.1 > DistanceEpsilon) ∧
       wraps + (chainPairs prev rest).countP (fun pr => decide (pr.2 < pr.1)) ≤ 1)) := by
  induction rest with
  | nil =>
      intro prev wraps hw
      simp [validateProgressGo, chainPairs, hw]
  | cons curr rest ih =>
      intro prev wraps hw
      show (if curr < 0 ∨ curr ≥ 1 then Except.error _
        else if progressDistance curr prev ≤ DistanceEpsilon then Except.error _
        else if curr < prev then
          if wraps + 1 > 1 then Except.error _
          else validateProgressGo curr (wraps + 1) rest
        else validateProgressGo curr wraps rest) = .ok () ↔ _
      by_cases h1 : curr < 0 ∨ curr ≥ 1
      · rw [if_pos h1]
        constructor
        · intro h; cases h
        · rintro ⟨hr, -, -⟩
          obtain ⟨ha, hb⟩ := hr curr (List.mem_cons_self curr rest)
          rcases h1 with h | h
          · linarith
          · linarith
      · rw [if_neg h1]
        by_cases h2 : progressDistance curr prev ≤ DistanceEpsilon
        · rw [if_pos h2]
          constructor
          · intro h; cases h
          · rintro ⟨-, hd, -⟩
            have := hd (prev, curr) (by rw [chainPairs]; exact List.mem_cons_self _ _)
            simp only at this
            linarith
        · rw [if_neg h2]
          push_neg at h1 h2
          by_cases h3 : curr < prev
          · rw [if_pos h3]
            by_cases h4 : wraps + 1 > 1
            · rw [if_pos h4]
              constructor
              · intro h; cases h
              · rintro ⟨-, -, hcount⟩
                rw [chainPairs, List.countP_cons] at hcount
                simp only [decide_eq_true_eq] at hcount
                rw [if_pos h3] at hcount
                omega
            · rw [if_neg h4]
              rw [ih curr (wraps + 1) (by omega)]
              constructor
              · rintro ⟨hr, hd, hcount⟩
                refine ⟨?_, ?_, ?_⟩
                · intro v hv
                  rcases List.mem_cons.mp hv with h | h
                  · subst h; exact ⟨h1.1, h1.2⟩
                  · exact hr v h
                · intro pr hpr
                  rw [chainPairs] at hpr
                  rcases List.mem_cons.mp hpr with h | h
                  · subst h; simp only; linarith
                  · exact hd pr h
                · rw [chainPairs, List.countP_cons]
                  simp only [decide_eq_true_eq]
                  rw [if_pos h3]
                  omega
              · rintro ⟨hr, hd, hcount⟩
                rw [chainPairs, List.countP_cons] at hcount
                simp only [decide_eq_true_eq] at hcount
                rw [if_pos h3] at hcount
                refine ⟨fun v hv => hr v (List.mem_cons_of_mem curr hv), ?_, by omega⟩
                intro pr hpr
                exact hd pr (by rw [chainPairs]; exact List.mem_cons_of_mem _ hpr)
          · rw [if_neg h3]
            rw [ih curr wraps hw]
            constructor
            · rintro ⟨hr, hd, hcount⟩
              refine ⟨?_, ?_, ?_⟩
              · intro v hv
                rcases List.mem_cons.mp hv with h | h
                · subst h; exact ⟨h1.1, h1.2⟩
                · exact hr v h
              · intro pr hpr
                rw [chainPairs] at hpr
                rcases List.mem_cons.mp hpr with h | h
                · subst h; simp only; linarith
                · exact hd pr h
              · rw [chainPairs, List.countP_cons]
                simp only [decide_eq_true_eq]
                rw [if_neg h3]
                omega
            · rintro ⟨hr, hd, hcount⟩
              rw [chainPairs, List.countP_cons] at hcount
              simp only [decide_eq_true_eq] at hcount
              rw [if_neg h3] at hcount
              refine ⟨fun v hv => hr v (List.mem_cons_of_mem curr hv), ?_, by omega⟩
              intro pr hpr
              exact hd pr (by rw [chainPairs]; exact List.mem_cons_of_mem _ hpr)

/-- `validateProgress` succeeds exactly on lists satisfying the three declarative
constraints of the claim. -/
theorem validateProgress_ok_iff (p : List ℚ) :
    validateProgress p = .ok () ↔ validProgressSpec p := by
  unfold validateProgress validProgressSpec cyclicPairs
  cases hl : p.getLast? with
  | none =>
      have hp : p = [] := List.getLast?_eq_none.mp hl
      subst hp
      simp
  | some lastv =>
      rw [validateProgressGo_ok_iff p lastv 0 (by omega)]
      simp only [Nat.zero_add]

/-- **C8.** Constructing a `DoubleMapper` from a list of mapping pairs fails
(with a distinguishable `FloatMapping -` error message) if and only if the
source or the target progress array violates one of the three constraints —
a value outside `[0,1)`, two cyclically consecutive values within epsilon
circular distance, or more than one wraparound (descent) — and succeeds
exactly when both arrays satisfy all three. -/
theorem C8_doubleMapper_validation (mappings : List (ℚ × ℚ)) :
    ((∃ dm, DoubleMapper.make mappings = .ok dm) ↔
      (validProgressSpec (mappings.map Prod.fst) ∧
       validProgressSpec (mappings.map Prod.snd))) ∧
    ((∃ e, DoubleMapper.make mappings = .error e) ↔
      ¬ (validProgressSpec (mappings.map Prod.fst) ∧
         validProgressSpec (mappings.map Prod.snd))) := by
  have hok : (∃ dm, DoubleMapper.make mappings = .ok dm) ↔
      (validProgressSpec (mappings.map Prod.fst) ∧
       validProgressSpec (mappings.map Prod.snd)) := by
    unfold DoubleMapper.make
    cases hs : validateProgress (mappings.map Prod.fst) with
    | error e =>
        constructor
        · rintro ⟨dm, hdm⟩
          exact Except.noConfusion hdm
        · rintro ⟨hspec, -⟩
          have hok' := (validateProgress_ok_iff (mappings.map Prod.fst)).mpr hspec
          rw [hs] at hok'
          cases hok'
    | ok u =>
        cases u
        have hspec1 := (validateProgress_ok_iff (mappings.map Prod.fst)).mp hs
        cases ht : validateProgress (mappings.map Prod.snd) with
        | error e =>
            constructor
            · rintro ⟨dm, hdm⟩
              exact Except.noConfusion hdm
            · rintro ⟨-, hspec⟩
              have hok' := (validateProgress_ok_iff (mappings.map Prod.snd)).mpr hspec
              rw [ht] at hok'
              cases hok'
        | ok u2 =>
            cases u2
            have hspec2 := (validateProgress_ok_iff (mappings.map Prod.snd)).mp ht
            exact ⟨fun _ => ⟨hspec1, hspec2⟩, fun _ => ⟨_, rfl⟩⟩
  refine ⟨hok, ?_⟩
  constructor
  · rintro ⟨e, he⟩ hspec
    obtain ⟨dm, hdm⟩ := hok.mpr hspec
    rw [he] at hdm
    cases hdm
  · intro hn
    cases hmk : DoubleMapper.make mappings with
    | ok dm => exact absurd (hok.mp ⟨dm, hmk⟩) hn
    | error e => exact ⟨e, rfl⟩

/-- Witness for C8: the two-pair identity correspondence `[(0,0), (1/2,1/2)]`
constructs successfully. -/
theorem C8_doubleMapper_validation_witness :
    ∃ dm, DoubleMapper.make [((0:ℚ), (0:ℚ)), (1/2, 1/2)] = .ok dm := by
  apply (C8_doubleMapper_validation [((0:ℚ), (0:ℚ)), (1/2, 1/2)]).1.mpr
  have hspec : validProgressSpec [(0:ℚ), 1/2] := by
    refine ⟨?_, ?_, ?_⟩
    · intro v hv
      rcases List.mem_cons.mp hv with h | h
      · subst h; norm_num
      · rcases List.mem_cons.mp h with h' | h'
        · subst h'; norm_num
        · cases h'
    · intro pr hpr
      have : cyclicPairs [(0:ℚ), 1/2] = [(1/2, 0), (0, 1/2)] := by
        unfold cyclicPairs chainPairs
        rfl
      rw [this] at hpr
      rcases List.mem_cons.mp hpr with h | h
      · subst h
        show progressDistance 0 (1/2) > DistanceEpsilon
        norm_num [progressDistance, DistanceEpsilon, abs_of_nonneg, abs_of_nonpos]
      · rcases List.mem_cons.mp h with h' | h'
        · subst h'
          show progressDistance (1/2) 0 > DistanceEpsilon
          norm_num [progressDistance, DistanceEpsilon, abs_of_nonneg, abs_of_nonpos]
        · cases h'
    · have : cyclicPairs [(0:ℚ), 1/2] = [(1/2, 0), (0, 1/2)] := by
        unfold cyclicPairs chainPairs
        rfl
      rw [this]
      simp only [List.countP_cons, List.countP_nil, decide_eq_true_eq]
      norm_num
  exact ⟨by simpa using hspec, by simpa using hspec⟩

/-! ## Claim C3: linearMap round trip -/

/-- Fractional part of a rational in `(-1, 1)`, explicitly. -/
theorem fract_small (u : ℚ) (h1 : -1 < u) (h2 : u < 1) :
    Int.fract u = if 0 ≤ u then u else u + 1 := by
  split
  case isTrue h => exact Int.fract_eq_self.mpr ⟨h, h2⟩
  case isFalse h =>
    have he : Int.fract u = Int.fract (u + 1) :=
      Int.fract_eq_fract.mpr ⟨-1, by push_cast; ring⟩
    rw [he, Int.fract_eq_self.mpr ⟨by linarith, by linarith⟩]

/-- For values in `[0,1)`, the circular range test of `progressInRange` is
exactly a comparison of fractional parts: `x` lies in the cyclic segment from
`a` to `b` iff the forward distance from `a` to `x` is at most the forward
distance from `a` to `b`. -/
theorem progressInRange_iff (x a b : ℚ) (hx0 : 0 ≤ x) (hx1 : x < 1)
    (ha0 : 0 ≤ a) (ha1 : a < 1) (hb0 : 0 ≤ b) (hb1 : b < 1) :
    progressInRange x a b = true ↔ Int.fract (x - a) ≤ Int.fract (b - a) := by
  unfold progressInRange
  rw [fract_small (x - a) (by linarith) (by linarith),
      fract_small (b - a) (by linarith) (by linarith)]
  by_cases hab : a ≤ b
  · rw [if_pos (show b ≥ a from hab), if_pos (show (0:ℚ) ≤ b - a by linarith)]
    by_cases hxa : (0:ℚ) ≤ x - a
    · rw [if_pos hxa]
      simp only [decide_eq_true_eq]
      constructor
      · rintro ⟨h1, h2⟩; linarith
      · intro h; exact ⟨by linarith, by linarith⟩
    · rw [if_neg hxa]
      simp only [decide_eq_true_eq]
      constructor
      · rintro ⟨h1, h2⟩
        exact absurd (show (0:ℚ) ≤ x - a by linarith) hxa
      · intro h; constructor <;> linarith
  · push_neg at hab
    rw [if_neg (show ¬ b ≥ a by exact not_le.mpr hab),
        if_neg (show ¬ (0:ℚ) ≤ b - a by linarith)]
    by_cases hxa : (0:ℚ) ≤ x - a
    · rw [if_pos hxa]
      simp only [decide_eq_true_eq]
      constructor
      · intro _; linarith
      · intro _; left; linarith
    · rw [if_neg hxa]
      simp only [decide_eq_true_eq]
      constructor
      · rintro (h | h)
        · exact absurd (show (0:ℚ) ≤ x - a by linarith) hxa
        · linarith
      · intro h; right; linarith

/-- Cyclic index arithmetic: the predecessor of the successor. -/
theorem mod_succ_pred (n i : ℕ) (hn : 0 < n) (hi : i < n) :
    ((i + 1) % n + n - 1) % n = i := by
  rcases Nat.lt_or_ge (i + 1) n with h | h
  · rw [Nat.mod_eq_of_lt h]
    have h2 : i + 1 + n - 1 = i + n := by omega
    rw [h2, Nat.add_mod_right, Nat.mod_eq_of_lt hi]
  · have h1 : i + 1 = n := by omega
    rw [h1, Nat.mod_self]
    have h2 : 0 + n - 1 = i := by omega
    rw [h2, Nat.mod_eq_of_lt hi]

/-- Cyclic index arithmetic: the successor of the predecessor. -/
theorem mod_pred_succ (n k : ℕ) (hn : 0 < n) (hk : k < n) :
    ((k + n - 1) % n + 1) % n = k := by
  cases k with
  | zero =>
    have h2 : 0 + n - 1 = n - 1 := by omega
    rw [h2, Nat.mod_eq_of_lt (show n - 1 < n by omega)]
    have h3 : n - 1 + 1 = n := by omega
    rw [h3, Nat.mod_self]
  | succ k =>
    have h2 : k + 1 + n - 1 = k + n := by omega
    rw [h2, Nat.add_mod_right, Nat.mod_eq_of_lt (show k < n by omega),
        Nat.mod_eq_of_lt hk]

theorem chainPairs_length (prev : ℚ) (l : List ℚ) :
    (chainPairs prev l).length = l.length := by
  induction l generalizing prev with
  | nil => rfl
  | cons a rest ih => simp [chainPairs, ih]

/-- The `k`-th chain pair: previous element (seed for `k = 0`) and `k`-th element. -/
theorem chainPairs_getD (prev : ℚ) (l : List ℚ) (k : ℕ) (hk : k < l.length) :
    (chainPairs prev l).getD k (0, 0) = ((prev :: l).getD k 0, l.getD k 0) := by
  induction l generalizing prev k with
  | nil => simp at hk
  | cons a rest ih =>
    cases k with
    | zero => rfl
    | succ k =>
      simp only [chainPairs, List.getD_cons_succ]
      exact ih a k (by simpa using hk)

/-- `cyclicPairs p` enumerated by index: the `k`-th pair is
`(p[(k + n - 1) % n], p[k])`. -/
theorem cyclicPairs_eq_map (p : List ℚ) (hp : 0 < p.length) :
    cyclicPairs p =
      (List.range p.length).map
        (fun k => (p.getD ((k + p.length - 1) % p.length) 0, p.getD k 0)) := by
  unfold cyclicPairs
  cases hl : p.getLast? with
  | none =>
    rw [List.getLast?_eq_none_iff] at hl
    rw [hl] at hp
    simp at hp
  | some lastv =>
    apply List.ext_getElem
    · rw [chainPairs_length]; simp
    · intro k h1 h2
      have hk : k < p.length := by simpa using h2
      rw [← List.getD_eq_getElem _ (0, 0) h1, chainPairs_getD lastv p k hk]
      rw [List.getElem_map, List.getElem_range]
      cases k with
      | zero =>
        obtain ⟨ys, hys⟩ := List.getLast?_eq_some_iff.mp hl
        subst hys
        have hlen : ys.length + 1 = (ys ++ [lastv]).length := by simp
        have h0 : (0 + (ys ++ [lastv]).length - 1) % (ys ++ [lastv]).length
            = ys.length := by
          rw [← hlen]
          have : ys.length + 1 - 1 = ys.length := by omega
          simp only [Nat.zero_add, this]
          exact Nat.mod_eq_of_lt (by omega)
        rw [h0]
        have hG : (ys ++ [lastv]).getD ys.length 0 = lastv := by
          rw [List.getD_eq_getElem _ 0 (by simp)]
          exact List.getElem_concat_length ys lastv ys.length rfl _
        simp [hG]
      | succ j =>
        have hj : j < p.length := by omega
        have h2a : j + 1 + p.length - 1 = j + p.length := by omega
        rw [h2a, Nat.add_mod_right, Nat.mod_eq_of_lt hj]
        simp [List.getD_cons_succ]

/-- Rotating the index by `k` leaves a cyclic sum over `range n` unchanged. -/
theorem sum_range_mod_shift (f : ℕ → ℚ) (n k : ℕ) (hn : 0 < n) :
    ∑ i ∈ Finset.range n, f ((i + k) % n) = ∑ i ∈ Finset.range n, f (i % n) := by
  haveI : NeZero n := ⟨hn.ne'⟩
  rw [Finset.sum_range fun i => f ((i + k) % n), Finset.sum_range fun i => f (i % n),
      ← Equiv.sum_comp (Equiv.addRight (k : Fin n)) fun i : Fin n => f (i.val % n)]
  apply Finset.sum_congr rfl
  intro i _
  have hv : ((Equiv.addRight (k : Fin n)) i).val % n = (i.val + k) % n := by
    simp only [Equiv.coe_addRight, Fin.add_def, Fin.val_natCast]
    rw [Nat.mod_mod_of_dvd _ dvd_rfl, Nat.add_mod i.val k n, Nat.mod_eq_of_lt i.isLt]
  rw [hv]

/-- A boolean-indicator sum over `Finset.range` is the `countP` over `List.range`. -/
theorem sum_boole_eq_countP (g : ℕ → Bool) (n : ℕ) :
    ∑ i ∈ Finset.range n, (if g i = true then (1 : ℚ) else 0) =
      (((List.range n).countP g : ℕ) : ℚ) := by
  induction n with
  | zero => simp
  | succ m ih =>
    rw [Finset.sum_range_succ, ih, List.range_succ, List.countP_append]
    cases hg : g m <;> simp [List.countP_cons, hg]

theorem getD_mem_bounds (p : List ℚ) (hv : ∀ v ∈ p, 0 ≤ v ∧ v < 1) (i : ℕ)
    (hi : i < p.length) : 0 ≤ p.getD i 0 ∧ p.getD i 0 < 1 := by
  rw [List.getD_eq_getElem _ _ hi]
  exact hv _ (List.getElem_mem hi)

theorem segGap_fract (p : List ℚ) (i : ℕ) :
    segGap p i = Int.fract (p.getD ((i + 1) % p.length) 0 - p.getD i 0) :=
  positiveModulo_one _

/-- The cyclic gaps of a progress list whose values are in `[0,1)`, are all
positive, and which descends at most once (the validated shape) sum to exactly 1:
the list walks once around the circle. -/
theorem segGap_sum (p : List ℚ) (h2 : 2 ≤ p.length)
    (hv : ∀ v ∈ p, 0 ≤ v ∧ v < 1)
    (hg : ∀ i < p.length, 0 < segGap p i)
    (hdesc : (cyclicPairs p).countP (fun pr => decide (pr.2 < pr.1)) ≤ 1) :
    ∑ i ∈ Finset.range p.length, segGap p i = 1 := by
  have hn : 0 < p.length := by omega
  have hterm : ∀ k, k < p.length →
      segGap p ((k + p.length - 1) % p.length) =
        (p.getD k 0 - p.getD ((k + p.length - 1) % p.length) 0) +
          (if descAt p k = true then (1 : ℚ) else 0) := by
    intro k hk
    have hj : (k + p.length - 1) % p.length < p.length := Nat.mod_lt _ hn
    have hd : segGap p ((k + p.length - 1) % p.length)
        = Int.fract (p.getD k 0 - p.getD ((k + p.length - 1) % p.length) 0) := by
      rw [segGap_fract, mod_pred_succ p.length k hn hk]
    obtain ⟨ha0, ha1⟩ := getD_mem_bounds p hv k hk
    obtain ⟨hb0, hb1⟩ := getD_mem_bounds p hv _ hj
    have hne : p.getD k 0 - p.getD ((k + p.length - 1) % p.length) 0 ≠ 0 := by
      intro h0
      have hpos := hg _ hj
      rw [hd, h0] at hpos
      simp [Int.fract_zero] at hpos
    rw [hd, fract_small _ (by linarith) (by linarith)]
    simp only [descAt, decide_eq_true_eq]
    by_cases hlt : p.getD k 0 < p.getD ((k + p.length - 1) % p.length) 0
    · rw [if_neg (show ¬ (0:ℚ) ≤ p.getD k 0 -
          p.getD ((k + p.length - 1) % p.length) 0 by push_neg; linarith),
        if_pos hlt]
    · rw [if_pos (show (0:ℚ) ≤ p.getD k 0 -
          p.getD ((k + p.length - 1) % p.length) 0 by
            have := le_of_not_lt hlt; linarith),
        if_neg hlt, add_zero]
  have hsub : ∀ k : ℕ, (k + (p.length - 1)) % p.length
      = (k + p.length - 1) % p.length := by
    intro k
    have h : k + (p.length - 1) = k + p.length - 1 := by omega
    rw [h]
  have hshift : ∑ k ∈ Finset.range p.length, segGap p ((k + p.length - 1) % p.length)
      = ∑ i ∈ Finset.range p.length, segGap p i :=
    calc ∑ k ∈ Finset.range p.length, segGap p ((k + p.length - 1) % p.length)
        = ∑ k ∈ Finset.range p.length, segGap p ((k + (p.length - 1)) % p.length) :=
          Finset.sum_congr rfl (fun k _ => by rw [hsub k])
      _ = ∑ i ∈ Finset.range p.length, segGap p (i % p.length) :=
          sum_range_mod_shift (fun j => segGap p j) p.length (p.length - 1) hn
      _ = ∑ i ∈ Finset.range p.length, segGap p i :=
          Finset.sum_congr rfl
            (fun i hi => by rw [Nat.mod_eq_of_lt (Finset.mem_range.mp hi)])
  have hprev : ∑ k ∈ Finset.range p.length, p.getD ((k + p.length - 1) % p.length) 0
      = ∑ k ∈ Finset.range p.length, p.getD k 0 :=
    calc ∑ k ∈ Finset.range p.length, p.getD ((k + p.length - 1) % p.length) 0
        = ∑ k ∈ Finset.range p.length, p.getD ((k + (p.length - 1)) % p.length) 0 :=
          Finset.sum_congr rfl (fun k _ => by rw [hsub k])
      _ = ∑ i ∈ Finset.range p.length, p.getD (i % p.length) 0 :=
          sum_range_mod_shift (fun j => p.getD j 0) p.length (p.length - 1) hn
      _ = ∑ k ∈ Finset.range p.length, p.getD k 0 :=
          Finset.sum_congr rfl
            (fun i hi => by rw [Nat.mod_eq_of_lt (Finset.mem_range.mp hi)])
  have hcomp : ((fun pr : ℚ × ℚ => decide (pr.2 < pr.1)) ∘
      (fun k => (p.getD ((k + p.length - 1) % p.length) 0, p.getD k 0)))
      = descAt p := by
    funext k
    simp [descAt, Function.comp]
  rw [cyclicPairs_eq_map p hn, List.countP_map, hcomp] at hdesc
  have hdiff : ∑ k ∈ Finset.range p.length,
      (p.getD k 0 - p.getD ((k + p.length - 1) % p.length) 0) = 0 := by
    rw [Finset.sum_sub_distrib, hprev, sub_self]
  have hsum : ∑ i ∈ Finset.range p.length, segGap p i
      = (((List.range p.length).countP (descAt p) : ℕ) : ℚ) :=
    calc ∑ i ∈ Finset.range p.length, segGap p i
        = ∑ k ∈ Finset.range p.length, segGap p ((k + p.length - 1) % p.length) :=
          hshift.symm
      _ = ∑ k ∈ Finset.range p.length,
            ((p.getD k 0 - p.getD ((k + p.length - 1) % p.length) 0) +
              (if descAt p k = true then (1 : ℚ) else 0)) :=
          Finset.sum_congr rfl (fun k hk => hterm k (Finset.mem_range.mp hk))
      _ = (((List.range p.length).countP (descAt p) : ℕ) : ℚ) := by
          rw [Finset.sum_add_distrib, hdiff, zero_add, sum_boole_eq_countP]
  have hpos : 0 < ∑ i ∈ Finset.range p.length, segGap p i :=
    Finset.sum_pos (fun i hi => hg i (Finset.mem_range.mp hi))
      ⟨0, Finset.mem_range.mpr hn⟩
  rw [hsum] at hpos ⊢
  have hC0 : 0 < (List.range p.length).countP (descAt p) := by exact_mod_cast hpos
  have hC1 : (List.range p.length).countP (descAt p) = 1 := by omega
  rw [hC1]
  norm_num

/-- One cyclic step in value space: the successor value is the fractional part
of the current value plus the gap. -/
theorem getD_step (p : List ℚ) (hv : ∀ v ∈ p, 0 ≤ v ∧ v < 1) (j : ℕ)
    (hj : j < p.length) :
    p.getD ((j + 1) % p.length) 0 = Int.fract (p.getD j 0 + segGap p j) := by
  have hn : 0 < p.length := by omega
  have hj1 : (j + 1) % p.length < p.length := Nat.mod_lt _ hn
  obtain ⟨h0, h1⟩ := getD_mem_bounds p hv _ hj1
  rw [segGap_fract]
  have hff : Int.fract (p.getD j 0 +
        Int.fract (p.getD ((j + 1) % p.length) 0 - p.getD j 0))
      = Int.fract (p.getD j 0 +
        (p.getD ((j + 1) % p.length) 0 - p.getD j 0)) :=
    Int.fract_eq_fract.mpr
      ⟨-⌊p.getD ((j + 1) % p.length) 0 - p.getD j 0⌋, by
        simp only [Int.fract]
        push_cast
        ring⟩
  rw [hff, show p.getD j 0 + (p.getD ((j + 1) % p.length) 0 - p.getD j 0)
      = p.getD ((j + 1) % p.length) 0 from by ring]
  exact (Int.fract_eq_self.mpr ⟨h0, h1⟩).symm

/-- Position after `m` cyclic steps from index `i`: the value at index
`(i + m) % n` is the fractional part of the start value plus the cumulative gap. -/
theorem getD_cumGap (p : List ℚ) (hv : ∀ v ∈ p, 0 ≤ v ∧ v < 1) (i : ℕ)
    (hi : i < p.length) (m : ℕ) :
    p.getD ((i + m) % p.length) 0 = Int.fract (p.getD i 0 + cumGap p i m) := by
  have hn : 0 < p.length := by omega
  induction m with
  | zero =>
    have h0 : cumGap p i 0 = 0 := by simp [cumGap]
    rw [h0, Nat.add_zero, add_zero, Nat.mod_eq_of_lt hi]
    exact (Int.fract_eq_self.mpr (getD_mem_bounds p hv i hi)).symm
  | succ m ih =>
    have hstep := getD_step p hv ((i + m) % p.length) (Nat.mod_lt _ hn)
    have hidx : (((i + m) % p.length) + 1) % p.length = (i + (m + 1)) % p.length := by
      rw [Nat.mod_add_mod]
      congr 1
    have hc : cumGap p i (m + 1) = cumGap p i m + segGap p ((i + m) % p.length) := by
      simp only [cumGap]
      rw [Finset.sum_range_succ]
    rw [← hidx, hstep, ih, hc]
    exact Int.fract_eq_fract.mpr
      ⟨-⌊p.getD i 0 + cumGap p i m⌋, by
        simp only [Int.fract]
        push_cast
        ring⟩

/-- Cumulative gaps are strictly increasing when every gap is positive. -/
theorem cumGap_lt (p : List ℚ) (hn : 0 < p.length)
    (hg : ∀ i < p.length, 0 < segGap p i) (i : ℕ) {m1 m2 : ℕ} (h : m1 < m2) :
    cumGap p i m1 < cumGap p i m2 := by
  simp only [cumGap]
  exact Finset.sum_lt_sum_of_subset (Finset.range_subset.mpr h.le)
    (Finset.mem_range.mpr h) (by simp) (hg _ (Nat.mod_lt _ hn))
    (fun j _ _ => (hg _ (Nat.mod_lt _ hn)).le)

/-- After a full cyclic walk of `n` steps the cumulative gap is exactly 1,
from any start index. -/
theorem cumGap_total (p : List ℚ) (h2 : 2 ≤ p.length)
    (hv : ∀ v ∈ p, 0 ≤ v ∧ v < 1)
    (hg : ∀ i < p.length, 0 < segGap p i)
    (hdesc : (cyclicPairs p).countP (fun pr => decide (pr.2 < pr.1)) ≤ 1)
    (i : ℕ) : cumGap p i p.length = 1 := by
  have hn : 0 < p.length := by omega
  have h1 : cumGap p i p.length
      = ∑ k ∈ Finset.range p.length, segGap p ((k + i) % p.length) := by
    simp only [cumGap]
    exact Finset.sum_congr rfl (fun k _ => by rw [Nat.add_comm i k])
  rw [h1, sum_range_mod_shift (fun j => segGap p j) p.length i hn]
  rw [Finset.sum_congr rfl
    (fun k hk => by rw [Nat.mod_eq_of_lt (Finset.mem_range.mp hk)] : ∀ k ∈ Finset.range p.length,
      segGap p (k % p.length) = segGap p k)]
  exact segGap_sum p h2 hv hg hdesc

/-- Classification of overlapping segments: if the point at parameter `t` into
segment `i` also lies in segment `(i + m) % n` (for `1 ≤ m < n`), then either
`m = 1` and the point is exactly the shared endpoint (`t` is the full gap), or
`m = n - 1` and the point is exactly the segment start (`t = 0`). -/
theorem cum_classify (p : List ℚ) (h2 : 2 ≤ p.length)
    (hv : ∀ v ∈ p, 0 ≤ v ∧ v < 1)
    (hg : ∀ i < p.length, 0 < segGap p i)
    (hdesc : (cyclicPairs p).countP (fun pr => decide (pr.2 < pr.1)) ≤ 1)
    (i : ℕ) (hi : i < p.length)
    (t : ℚ) (ht0 : 0 ≤ t) (ht1 : t ≤ segGap p i)
    (m : ℕ) (hm1 : 1 ≤ m) (hm2 : m < p.length)
    (hmatch : Int.fract (t - cumGap p i m) ≤ segGap p ((i + m) % p.length)) :
    (m = 1 ∧ t = segGap p i) ∨ (m = p.length - 1 ∧ t = 0) := by
  have hn : 0 < p.length := by omega
  have hv1 : cumGap p i 1 = segGap p i := by
    simp only [cumGap, Finset.sum_range_one]
    rw [Nat.add_zero, Nat.mod_eq_of_lt hi]
  have htot := cumGap_total p h2 hv hg hdesc i
  have hmlt : cumGap p i m < 1 := by
    rw [← htot]
    exact cumGap_lt p hn hg i hm2
  have ht_le : t ≤ cumGap p i m := by
    rcases Nat.eq_or_lt_of_le hm1 with h | h
    · rw [← h, hv1]
      exact ht1
    · have hx := cumGap_lt p hn hg i h
      rw [hv1] at hx
      linarith
  rcases eq_or_lt_of_le ht_le with heq | hlt
  · left
    by_cases hm : m = 1
    · exact ⟨hm, by rw [heq, hm, hv1]⟩
    · exfalso
      have h1m : 1 < m := by omega
      have hx := cumGap_lt p hn hg i h1m
      rw [hv1] at hx
      rw [← heq] at hx
      linarith
  · right
    have hfr : Int.fract (t - cumGap p i m) = t - cumGap p i m + 1 := by
      rw [fract_small _ (by linarith) (by linarith),
        if_neg (not_le.mpr (show t - cumGap p i m < 0 by linarith))]
    have hGm : segGap p ((i + m) % p.length)
        = cumGap p i (m + 1) - cumGap p i m := by
      have hc : cumGap p i (m + 1)
          = cumGap p i m + segGap p ((i + m) % p.length) := by
        simp only [cumGap]
        rw [Finset.sum_range_succ]
      rw [hc]
      ring
    rw [hfr, hGm] at hmatch
    have hm1le : cumGap p i (m + 1) ≤ 1 := by
      rcases Nat.lt_or_ge (m + 1) p.length with h | h
      · rw [← htot]
        exact (cumGap_lt p hn hg i h).le
      · have hEq : m + 1 = p.length := by omega
        rw [hEq, htot]
    have ht_eq : t = 0 := le_antisymm (by linarith) ht0
    refine ⟨?_, ht_eq⟩
    by_contra hne
    have h : m + 1 < p.length := by omega
    have hlt2 := cumGap_lt p hn hg i h
    rw [htot] at hlt2
    rw [ht_eq] at hmatch
    linarith

/-- What a successful segment search certifies: the index is in range and the
forward distance from the segment start to `x` is at most the gap. -/
theorem findSegmentStartIndex_eq_some (xs : List ℚ) (x : ℚ) (i : ℕ)
    (h : findSegmentStartIndex xs x = some i) :
    i < xs.length ∧
      progressInRange x (xs.getD i 0) (xs.getD ((i + 1) % xs.length) 0) = true := by
  unfold findSegmentStartIndex at h
  have h1 := List.find?_some h
  have h2 := List.mem_of_find?_eq_some h
  exact ⟨List.mem_range.mp h2, by simpa using h1⟩

/-- The segment search always succeeds on a validated array: every `x ∈ [0,1)`
lies in some cyclic segment (coverage, by minimizing the forward distance). -/
theorem findSegmentStartIndex_isSome (xs : List ℚ) (x : ℚ) (h2 : 2 ≤ xs.length)
    (hv : ∀ v ∈ xs, 0 ≤ v ∧ v < 1)
    (hg : ∀ i < xs.length, 0 < segGap xs i)
    (hx0 : 0 ≤ x) (hx1 : x < 1) :
    ∃ i, findSegmentStartIndex xs x = some i := by
  have hn : 0 < xs.length := by omega
  obtain ⟨i, hi_mem, hmin⟩ := Finset.exists_min_image (Finset.range xs.length)
    (fun i => Int.fract (x - xs.getD i 0)) ⟨0, Finset.mem_range.mpr hn⟩
  have hi : i < xs.length := Finset.mem_range.mp hi_mem
  have hkey : Int.fract (x - xs.getD i 0) ≤ segGap xs i := by
    by_contra hgt
    push_neg at hgt
    have hjlt : (i + 1) % xs.length < xs.length := Nat.mod_lt _ hn
    have hdj : Int.fract (x - xs.getD ((i + 1) % xs.length) 0)
        = Int.fract (x - xs.getD i 0) - segGap xs i := by
      have hxj : xs.getD ((i + 1) % xs.length) 0
          = Int.fract (xs.getD i 0 + segGap xs i) := getD_step xs hv i hi
      have e1 : Int.fract (x - xs.getD ((i + 1) % xs.length) 0)
          = Int.fract (x - xs.getD i 0 - segGap xs i) := by
        rw [hxj]
        exact Int.fract_eq_fract.mpr
          ⟨⌊xs.getD i 0 + segGap xs i⌋, by
            linear_combination Int.self_sub_fract (xs.getD i 0 + segGap xs i)⟩
      have e2 : Int.fract (x - xs.getD i 0 - segGap xs i)
          = Int.fract (Int.fract (x - xs.getD i 0) - segGap xs i) :=
        Int.fract_eq_fract.mpr ⟨⌊x - xs.getD i 0⌋, by
          linear_combination Int.self_sub_fract (x - xs.getD i 0)⟩
      rw [e1, e2]
      have hb := hg i hi
      have hfr1 : Int.fract (x - xs.getD i 0) < 1 := Int.fract_lt_one _
      exact Int.fract_eq_self.mpr ⟨by linarith, by linarith⟩
    have hcon := hmin _ (Finset.mem_range.mpr hjlt)
    rw [hdj] at hcon
    have := hg i hi
    linarith
  have hpir : progressInRange x (xs.getD i 0)
      (xs.getD ((i + 1) % xs.length) 0) = true := by
    obtain ⟨ha0, ha1⟩ := getD_mem_bounds xs hv i hi
    obtain ⟨hb0, hb1⟩ := getD_mem_bounds xs hv _ (Nat.mod_lt _ hn)
    rw [progressInRange_iff x _ _ hx0 hx1 ha0 ha1 hb0 hb1, ← segGap_fract]
    exact hkey
  have hex : ∃ k ∈ List.range xs.length,
      (progressInRange x (xs.getD k 0) (xs.getD ((k + 1) % xs.length) 0)) = true :=
    ⟨i, List.mem_range.mpr hi, hpir⟩
  unfold findSegmentStartIndex
  exact Option.isSome_iff_exists.mp (List.find?_isSome.mpr hex)

/-- Evaluation of `linearMapGo` when the segment search succeeds and the found
segment is not shorter than 0.001: the result is the fractional-linear
interpolant. -/
theorem linearMapGo_eq (xs ys : List ℚ) (x : ℚ) (i : ℕ)
    (hfind : findSegmentStartIndex xs x = some i)
    (hbig : ¬ segGap xs i < 1/1000) :
    linearMapGo xs ys x =
      Int.fract (ys.getD i 0 +
        Int.fract (ys.getD ((i + 1) % xs.length) 0 - ys.getD i 0) *
          (Int.fract (x - xs.getD i 0) / segGap xs i)) := by
  simp only [linearMapGo, hfind, Option.getD_some]
  rw [show positiveModulo (xs.getD ((i + 1) % xs.length) 0 - xs.getD i 0) 1
      = segGap xs i from rfl]
  rw [if_neg hbig, positiveModulo_one, positiveModulo_one, positiveModulo_one]

theorem fract_add_fract_right (a u : ℚ) :
    Int.fract (a + Int.fract u) = Int.fract (a + u) :=
  Int.fract_eq_fract.mpr ⟨-⌊u⌋, by push_cast; linear_combination - Int.self_sub_fract u⟩

theorem fract_sub_fracts (A B : ℚ) :
    Int.fract (Int.fract A - Int.fract B) = Int.fract (A - B) :=
  Int.fract_eq_fract.mpr ⟨⌊B⌋ - ⌊A⌋, by
    push_cast
    linear_combination Int.self_sub_fract B - Int.self_sub_fract A⟩

/-- Recovering a value in `[0,1)` from a segment start and the forward distance. -/
theorem self_eq_fract_add (x a : ℚ) (hx0 : 0 ≤ x) (hx1 : x < 1) :
    Int.fract (a + Int.fract (x - a)) = x := by
  rw [fract_add_fract_right, show a + (x - a) = x from by ring]
  exact Int.fract_eq_self.mpr ⟨hx0, hx1⟩

/-- Core of the round trip: on a pair of validated arrays of equal length with
all gaps at least 0.001, the interpolation core maps `[0,1)` into `[0,1)` and
applying it backwards recovers `x` exactly — whichever segment the backward
search lands in. -/
theorem linearMapGo_roundtrip (xs ys : List ℚ) (hlen : ys.length = xs.length)
    (h2 : 2 ≤ xs.length)
    (hvx : ∀ v ∈ xs, 0 ≤ v ∧ v < 1) (hvy : ∀ v ∈ ys, 0 ≤ v ∧ v < 1)
    (hgx : ∀ i < xs.length, 1/1000 ≤ segGap xs i)
    (hgy : ∀ i < ys.length, 1/1000 ≤ segGap ys i)
    (hdy : (cyclicPairs ys).countP (fun pr => decide (pr.2 < pr.1)) ≤ 1)
    (x : ℚ) (hx0 : 0 ≤ x) (hx1 : x < 1) :
    0 ≤ linearMapGo xs ys x ∧ linearMapGo xs ys x < 1 ∧
      linearMapGo ys xs (linearMapGo xs ys x) = x := by
  have hnx : 0 < xs.length := by omega
  have h2y : 2 ≤ ys.length := by omega
  have hny : 0 < ys.length := by omega
  have hgx3 : ∀ i, i < xs.length → 0 < segGap xs i := fun i hi => by
    have := hgx i hi
    linarith
  have hgy3 : ∀ i, i < ys.length → 0 < segGap ys i := fun i hi => by
    have := hgy i hi
    linarith
  obtain ⟨i, hfind⟩ := findSegmentStartIndex_isSome xs x h2 hvx hgx3 hx0 hx1
  obtain ⟨hi, hpir⟩ := findSegmentStartIndex_eq_some xs x i hfind
  have hiy : i < ys.length := by omega
  have hbig : ¬ segGap xs i < 1 / 1000 := not_lt.mpr (hgx i hi)
  have hgx0 : (0:ℚ) < segGap xs i := hgx3 i hi
  have hgy0 : (0:ℚ) < segGap ys i := hgy3 i hiy
  have hd_le : Int.fract (x - xs.getD i 0) ≤ segGap xs i := by
    obtain ⟨ha0, ha1⟩ := getD_mem_bounds xs hvx i hi
    obtain ⟨hb0, hb1⟩ := getD_mem_bounds xs hvx _ (Nat.mod_lt _ hnx)
    have h := (progressInRange_iff x _ _ hx0 hx1 ha0 ha1 hb0 hb1).mp hpir
    rw [← segGap_fract] at h
    exact h
  have hd0 : 0 ≤ Int.fract (x - xs.getD i 0) := Int.fract_nonneg _
  have hGy : Int.fract (ys.getD ((i + 1) % xs.length) 0 - ys.getD i 0)
      = segGap ys i := by
    rw [show (i + 1) % xs.length = (i + 1) % ys.length from by rw [hlen],
      ← segGap_fract]
  have hval : linearMapGo xs ys x
      = Int.fract (ys.getD i 0 +
          segGap ys i * (Int.fract (x - xs.getD i 0) / segGap xs i)) := by
    rw [linearMapGo_eq xs ys x i hfind hbig, hGy]
  set t := segGap ys i * (Int.fract (x - xs.getD i 0) / segGap xs i) with ht_def
  have ht0 : 0 ≤ t := mul_nonneg hgy0.le (div_nonneg hd0 hgx0.le)
  have ht1 : t ≤ segGap ys i := by
    have hfle : Int.fract (x - xs.getD i 0) / segGap xs i ≤ 1 :=
      (div_le_one hgx0).mpr hd_le
    calc t ≤ segGap ys i * 1 := by
          rw [ht_def]
          exact mul_le_mul_of_nonneg_left hfle hgy0.le
      _ = segGap ys i := mul_one _
  have hGi_lt1 : segGap ys i < 1 := by
    rw [segGap_fract]
    exact Int.fract_lt_one _
  have hy0 : 0 ≤ linearMapGo xs ys x := by
    rw [hval]
    exact Int.fract_nonneg _
  have hy1 : linearMapGo xs ys x < 1 := by
    rw [hval]
    exact Int.fract_lt_one _
  refine ⟨hy0, hy1, ?_⟩
  obtain ⟨j, hfindY⟩ := findSegmentStartIndex_isSome ys (linearMapGo xs ys x)
    h2y hvy hgy3 hy0 hy1
  obtain ⟨hj, hpirY⟩ := findSegmentStartIndex_eq_some ys _ j hfindY
  have hbigY : ¬ segGap ys j < 1 / 1000 := not_lt.mpr (hgy j hj)
  have hgyj : (0:ℚ) < segGap ys j := hgy3 j hj
  rw [linearMapGo_eq ys xs (linearMapGo xs ys x) j hfindY hbigY]
  have hGxj : Int.fract (xs.getD ((j + 1) % ys.length) 0 - xs.getD j 0)
      = segGap xs j := by
    rw [show (j + 1) % ys.length = (j + 1) % xs.length from by rw [hlen],
      ← segGap_fract]
  rw [hGxj]
  have hdy_le : Int.fract (linearMapGo xs ys x - ys.getD j 0) ≤ segGap ys j := by
    obtain ⟨ha0, ha1⟩ := getD_mem_bounds ys hvy j hj
    obtain ⟨hb0, hb1⟩ := getD_mem_bounds ys hvy _ (Nat.mod_lt _ hny)
    have h := (progressInRange_iff _ _ _ hy0 hy1 ha0 ha1 hb0 hb1).mp hpirY
    rw [← segGap_fract] at h
    exact h
  set m := (j + ys.length - i) % ys.length with hm_def
  have hm_lt : m < ys.length := Nat.mod_lt _ hny
  have hj_eq : (i + m) % ys.length = j := by
    rw [hm_def, Nat.add_mod_mod,
      show i + (j + ys.length - i) = j + ys.length from by omega,
      Nat.add_mod_right, Nat.mod_eq_of_lt hj]
  have hysj : ys.getD j 0 = Int.fract (ys.getD i 0 + cumGap ys i m) := by
    rw [← hj_eq]
    exact getD_cumGap ys hvy i hiy m
  have hdist : Int.fract (linearMapGo xs ys x - ys.getD j 0)
      = Int.fract (t - cumGap ys i m) := by
    rw [hval, hysj, fract_sub_fracts,
      show ys.getD i 0 + t - (ys.getD i 0 + cumGap ys i m)
        = t - cumGap ys i m from by ring]
  rw [hdist]
  rw [hdist] at hdy_le
  have hx_eq : x = Int.fract (xs.getD i 0 + Int.fract (x - xs.getD i 0)) :=
    (self_eq_fract_add x (xs.getD i 0) hx0 hx1).symm
  rcases Nat.eq_zero_or_pos m with hm0 | hmpos
  · -- backward search landed in the same segment
    have hij : j = i := by
      rw [← hj_eq, hm0, Nat.add_zero, Nat.mod_eq_of_lt hiy]
    rw [hij, hm0]
    have hcz : cumGap ys i 0 = 0 := by simp [cumGap]
    rw [hcz, sub_zero,
      Int.fract_eq_self.mpr ⟨ht0, lt_of_le_of_lt ht1 hGi_lt1⟩]
    have hcalc : segGap xs i * (t / segGap ys i)
        = Int.fract (x - xs.getD i 0) := by
      rw [ht_def]
      field_simp
      ring
    rw [hcalc]
    exact self_eq_fract_add x (xs.getD i 0) hx0 hx1
  · have hmatch : Int.fract (t - cumGap ys i m)
        ≤ segGap ys ((i + m) % ys.length) := by
      rw [hj_eq]
      exact hdy_le
    rcases cum_classify ys h2y hvy hgy3 hdy i hiy t ht0 ht1 m hmpos hm_lt hmatch
      with ⟨hm1, ht_eq⟩ | ⟨hm1, ht_eq⟩
    · -- landed at the shared endpoint, one segment ahead
      have h3 : segGap ys i * (Int.fract (x - xs.getD i 0) / segGap xs i)
          = segGap ys i := ht_def.symm.trans ht_eq
      have h4 : Int.fract (x - xs.getD i 0) / segGap xs i = 1 :=
        mul_left_cancel₀ hgy0.ne' (h3.trans (mul_one (segGap ys i)).symm)
      have hdg : Int.fract (x - xs.getD i 0) = segGap xs i := by
        have h5 := (div_eq_iff hgx0.ne').mp h4
        rw [one_mul] at h5
        exact h5
      have hv1' : cumGap ys i 1 = segGap ys i := by
        simp only [cumGap, Finset.sum_range_one]
        rw [Nat.add_zero, Nat.mod_eq_of_lt hiy]
      have hzero : Int.fract (t - cumGap ys i 1) = 0 := by
        rw [ht_eq, hv1', sub_self, Int.fract_zero]
      rw [hm1, hzero, zero_div, mul_zero, add_zero]
      have hjx2 : xs.getD j 0 = Int.fract (xs.getD i 0 + segGap xs i) := by
        rw [← hj_eq, hm1,
          show (i + 1) % ys.length = (i + 1) % xs.length from by rw [hlen]]
        exact getD_step xs hvx i hi
      rw [hjx2, Int.fract_fract]
      conv_rhs => rw [hx_eq]
      rw [hdg]
    · -- landed at the segment start, a full cycle behind
      have h5 : segGap ys i * (Int.fract (x - xs.getD i 0) / segGap xs i)
          = 0 := ht_def.symm.trans ht_eq
      have hd0' : Int.fract (x - xs.getD i 0) = 0 := by
        rcases mul_eq_zero.mp h5 with h | h
        · exact absurd h hgy0.ne'
        · rcases div_eq_zero_iff.mp h with h | h
          · exact h
          · exact absurd h hgx0.ne'
      have htot := cumGap_total ys h2y hvy hgy3 hdy i
      have hvm0 : 0 < cumGap ys i m := by
        have hcz : cumGap ys i 0 = 0 := by simp [cumGap]
        have := cumGap_lt ys hny hgy3 i hmpos
        rw [hcz] at this
        exact this
      have hvm1 : cumGap ys i m < 1 := by
        rw [← htot]
        exact cumGap_lt ys hny hgy3 i hm_lt
      have hsegj : segGap ys j = 1 - cumGap ys i m := by
        have hsucc : cumGap ys i (m + 1)
            = cumGap ys i m + segGap ys ((i + m) % ys.length) := by
          simp only [cumGap]
          rw [Finset.sum_range_succ]
        rw [hj_eq] at hsucc
        have hm1n : m + 1 = ys.length := by omega
        rw [hm1n, htot] at hsucc
        linarith
      have hfr_eq : Int.fract (t - cumGap ys i m) = segGap ys j := by
        rw [ht_eq, zero_sub, fract_small _ (by linarith) (by linarith),
          if_neg (not_le.mpr (by linarith)), hsegj]
        ring
      rw [hfr_eq, div_self hgyj.ne', mul_one]
      have hjx : j < xs.length := by omega
      rw [← getD_step xs hvx j hjx]
      have hji : (j + 1) % xs.length = i := by
        rw [← hlen, ← hj_eq, hm1,
          show i + (ys.length - 1) = i + ys.length - 1 from by omega]
        exact mod_pred_succ ys.length i hny hiy
      rw [hji]
      have hxv : x = xs.getD i 0 :=
        calc x = Int.fract (xs.getD i 0 + Int.fract (x - xs.getD i 0)) := hx_eq
          _ = Int.fract (xs.getD i 0) := by rw [hd0', add_zero]
          _ = xs.getD i 0 := Int.fract_eq_self.mpr (getD_mem_bounds xs hvx i hi)
      exact hxv.symm

theorem fract_sub_fract_left (A b : ℚ) :
    Int.fract (Int.fract A - b) = Int.fract (A - b) :=
  Int.fract_eq_fract.mpr ⟨-⌊A⌋, by push_cast; linear_combination - Int.self_sub_fract A⟩

/-- Exactness at the configured points: the interpolation core maps the `k`-th
source value to the `k`-th target value exactly, whichever segment the search
lands in. -/
theorem linearMapGo_exact (xs ys : List ℚ) (hlen : ys.length = xs.length)
    (h2 : 2 ≤ xs.length)
    (hvx : ∀ v ∈ xs, 0 ≤ v ∧ v < 1) (hvy : ∀ v ∈ ys, 0 ≤ v ∧ v < 1)
    (hgx : ∀ i < xs.length, 1/1000 ≤ segGap xs i)
    (hdx : (cyclicPairs xs).countP (fun pr => decide (pr.2 < pr.1)) ≤ 1)
    (k : ℕ) (hk : k < xs.length) :
    linearMapGo xs ys (xs.getD k 0) = ys.getD k 0 := by
  have hnx : 0 < xs.length := by omega
  have hny : 0 < ys.length := by omega
  have hgx3 : ∀ i, i < xs.length → 0 < segGap xs i := fun i hi => by
    have := hgx i hi
    linarith
  obtain ⟨hx0, hx1⟩ := getD_mem_bounds xs hvx k hk
  obtain ⟨i, hfind⟩ := findSegmentStartIndex_isSome xs (xs.getD k 0) h2 hvx hgx3 hx0 hx1
  obtain ⟨hi, hpir⟩ := findSegmentStartIndex_eq_some xs _ i hfind
  have hiy : i < ys.length := by omega
  have hbig : ¬ segGap xs i < 1 / 1000 := not_lt.mpr (hgx i hi)
  have hgx0 : (0:ℚ) < segGap xs i := hgx3 i hi
  have hd_le : Int.fract (xs.getD k 0 - xs.getD i 0) ≤ segGap xs i := by
    obtain ⟨ha0, ha1⟩ := getD_mem_bounds xs hvx i hi
    obtain ⟨hb0, hb1⟩ := getD_mem_bounds xs hvx _ (Nat.mod_lt _ hnx)
    have h := (progressInRange_iff _ _ _ hx0 hx1 ha0 ha1 hb0 hb1).mp hpir
    rw [← segGap_fract] at h
    exact h
  have hGy : Int.fract (ys.getD ((i + 1) % xs.length) 0 - ys.getD i 0)
      = segGap ys i := by
    rw [show (i + 1) % xs.length = (i + 1) % ys.length from by rw [hlen],
      ← segGap_fract]
  rw [linearMapGo_eq xs ys (xs.getD k 0) i hfind hbig, hGy]
  set m := (k + xs.length - i) % xs.length with hm_def
  have hm_lt : m < xs.length := Nat.mod_lt _ hnx
  have hj_eq : (i + m) % xs.length = k := by
    rw [hm_def, Nat.add_mod_mod,
      show i + (k + xs.length - i) = k + xs.length from by omega,
      Nat.add_mod_right, Nat.mod_eq_of_lt hk]
  have hxsk : xs.getD k 0 = Int.fract (xs.getD i 0 + cumGap xs i m) := by
    rw [← hj_eq]
    exact getD_cumGap xs hvx i hi m
  have hfd : Int.fract (xs.getD k 0 - xs.getD i 0) = Int.fract (cumGap xs i m) := by
    rw [hxsk, fract_sub_fract_left,
      show xs.getD i 0 + cumGap xs i m - xs.getD i 0 = cumGap xs i m from by ring]
  rcases Nat.eq_zero_or_pos m with hm0 | hmpos
  · have hik : i = k := by
      have h := hj_eq
      rw [hm0, Nat.add_zero, Nat.mod_eq_of_lt hi] at h
      exact h
    rw [← hik, sub_self, Int.fract_zero, zero_div, mul_zero, add_zero]
    exact Int.fract_eq_self.mpr (getD_mem_bounds ys hvy i hiy)
  · have htot := cumGap_total xs h2 hvx hgx3 hdx i
    have hvm0 : 0 < cumGap xs i m := by
      have hcz : cumGap xs i 0 = 0 := by simp [cumGap]
      have h := cumGap_lt xs hnx hgx3 i hmpos
      rw [hcz] at h
      exact h
    have hvm1 : cumGap xs i m < 1 := by
      rw [← htot]
      exact cumGap_lt xs hnx hgx3 i hm_lt
    have hfd2 : Int.fract (xs.getD k 0 - xs.getD i 0) = cumGap xs i m := by
      rw [hfd]
      exact Int.fract_eq_self.mpr ⟨hvm0.le, hvm1⟩
    have hv1 : cumGap xs i 1 = segGap xs i := by
      simp only [cumGap, Finset.sum_range_one]
      rw [Nat.add_zero, Nat.mod_eq_of_lt hi]
    have hm1 : m = 1 := by
      by_contra hne
      have h2m : 1 < m := by omega
      have h := cumGap_lt xs hnx hgx3 i h2m
      rw [hv1] at h
      rw [hfd2] at hd_le
      linarith
    have hdg : Int.fract (xs.getD k 0 - xs.getD i 0) = segGap xs i := by
      rw [hfd2, hm1, hv1]
    rw [hdg, div_self hgx0.ne', mul_one, ← getD_step ys hvy i hiy]
    congr 1
    rw [← hj_eq, hm1, hlen]

/-- For a progress already in `[0,1)` and nonempty arrays, `linearMap` runs the
interpolation core without clamping or throwing. -/
theorem linearMap_ok_of_mem (xs ys : List ℚ) (x : ℚ) (hx0 : 0 ≤ x) (hx1 : x < 1)
    (hxs : xs.length ≠ 0) (hys : ys.length ≠ 0) :
    linearMap xs ys x = .ok (linearMapGo xs ys x) := by
  unfold linearMap
  rw [if_neg (show ¬ (xs.length = 0 ∨ ys.length = 0) from by
      push_neg
      exact ⟨hxs, hys⟩),
    if_neg (show ¬ ((x < 0 ∨ x > 1) ∧
        (x < -DistanceEpsilon ∨ x > 1 + DistanceEpsilon)) from by
      rintro ⟨h | h, -⟩ <;> linarith),
    if_neg (show ¬ (x < 0 ∨ x > 1) from by rintro (h | h) <;> linarith)]

/-- What a successful `DoubleMapper` construction certifies: the two arrays are
the projections of the mapping pairs and both satisfy the validation spec. -/
theorem make_ok_elim (mappings : List (ℚ × ℚ)) (dm : DoubleMapper)
    (hmk : DoubleMapper.make mappings = .ok dm) :
    dm = ⟨mappings.map Prod.fst, mappings.map Prod.snd⟩ ∧
      validProgressSpec (mappings.map Prod.fst) ∧
      validProgressSpec (mappings.map Prod.snd) := by
  unfold DoubleMapper.make at hmk
  cases hs : validateProgress (mappings.map Prod.fst) with
  | error e =>
    rw [hs] at hmk
    exact Except.noConfusion hmk
  | ok u =>
    cases u
    rw [hs] at hmk
    cases ht : validateProgress (mappings.map Prod.snd) with
    | error e =>
      rw [ht] at hmk
      exact Except.noConfusion hmk
    | ok u2 =>
      cases u2
      rw [ht] at hmk
      have hd : dm = ⟨mappings.map Prod.fst, mappings.map Prod.snd⟩ := by
        have h := hmk
        simp only [bind, Except.bind] at h
        exact (Except.ok.inj h).symm
      exact ⟨hd, (validateProgress_ok_iff _).mp hs, (validateProgress_ok_iff _).mp ht⟩

theorem getD_map_pair (l : List (ℚ × ℚ)) (k : ℕ) (hk : k < l.length) :
    (l.map Prod.fst).getD k 0 = (l.getD k (0, 0)).1 ∧
    (l.map Prod.snd).getD k 0 = (l.getD k (0, 0)).2 := by
  constructor
  · rw [List.getD_eq_getElem _ _ (by simpa using hk), List.getElem_map,
      List.getD_eq_getElem _ _ hk]
  · rw [List.getD_eq_getElem _ _ (by simpa using hk), List.getElem_map,
      List.getD_eq_getElem _ _ hk]

/-- **C3** (amended). For every successfully constructed `DoubleMapper` with at
least two mapping pairs and with every cyclic segment of both progress arrays at
least `0.001` long — so that `linearMap`'s short-segment midpoint fallback is
never taken — `map` sends `[0,1)` into `[0,1)` without throwing, `mapBack`
inverts it exactly (stronger than the claimed approximation), and `map` at each
configured source value returns the configured target value exactly. -/
theorem C3_doubleMapper_roundtrip (mappings : List (ℚ × ℚ)) (dm : DoubleMapper)
    (hmk : DoubleMapper.make mappings = .ok dm)
    (h2 : 2 ≤ dm.sourceValues.length)
    (hgx : ∀ i < dm.sourceValues.length, 1/1000 ≤ segGap dm.sourceValues i)
    (hgy : ∀ i < dm.targetValues.length, 1/1000 ≤ segGap dm.targetValues i) :
    (∀ x : ℚ, 0 ≤ x → x < 1 →
      dm.map x = .ok (linearMapGo dm.sourceValues dm.targetValues x) ∧
      0 ≤ linearMapGo dm.sourceValues dm.targetValues x ∧
      linearMapGo dm.sourceValues dm.targetValues x < 1 ∧
      dm.mapBack (linearMapGo dm.sourceValues dm.targetValues x) = .ok x) ∧
    (∀ k, k < mappings.length →
      dm.map ((mappings.getD k (0, 0)).1) = .ok ((mappings.getD k (0, 0)).2)) := by
  obtain ⟨hdm, hspec1, hspec2⟩ := make_ok_elim mappings dm hmk
  have hxs : dm.sourceValues = mappings.map Prod.fst := by rw [hdm]
  have hys : dm.targetValues = mappings.map Prod.snd := by rw [hdm]
  rw [← hxs] at hspec1
  rw [← hys] at hspec2
  have hlen : dm.targetValues.length = dm.sourceValues.length := by
    rw [hxs, hys]
    simp
  have hv1 := hspec1.1
  have hv2 := hspec2.1
  have hd1 := hspec1.2.2
  have hd2 := hspec2.2.2
  have hlen0x : dm.sourceValues.length ≠ 0 := by omega
  have hlen0y : dm.targetValues.length ≠ 0 := by omega
  have hmapeq : ∀ z : ℚ, dm.map z = linearMap dm.sourceValues dm.targetValues z :=
    fun z => rfl
  have hbackeq : ∀ z : ℚ, dm.mapBack z = linearMap dm.targetValues dm.sourceValues z :=
    fun z => rfl
  constructor
  · intro x hx0 hx1
    obtain ⟨hy0, hy1, hrt⟩ := linearMapGo_roundtrip dm.sourceValues dm.targetValues
      hlen h2 hv1 hv2 hgx hgy hd2 x hx0 hx1
    refine ⟨?_, hy0, hy1, ?_⟩
    · rw [hmapeq, linearMap_ok_of_mem _ _ x hx0 hx1 hlen0x hlen0y]
    · rw [hbackeq, linearMap_ok_of_mem _ _ _ hy0 hy1 hlen0y hlen0x, hrt]
  · intro k hk
    have hkx : k < dm.sourceValues.length := by
      rw [hxs]
      simpa using hk
    obtain ⟨hgd1, hgd2⟩ := getD_map_pair mappings k hk
    obtain ⟨hx0, hx1⟩ := getD_mem_bounds _ hv1 k hkx
    have hex := linearMapGo_exact dm.sourceValues dm.targetValues hlen h2 hv1 hv2
      hgx hd1 k hkx
    have hsk : dm.sourceValues.getD k 0 = (mappings.getD k (0, 0)).1 := by
      rw [hxs]
      exact hgd1
    have htk : dm.targetValues.getD k 0 = (mappings.getD k (0, 0)).2 := by
      rw [hys]
      exact hgd2
    rw [← hsk, ← htk, hmapeq,
      linearMap_ok_of_mem _ _ _ hx0 hx1 hlen0x hlen0y, hex]

/-- Evaluation of `linearMapGo` when the found segment is shorter than 0.001:
the position in the segment is forced to the midpoint 0.5. -/
theorem linearMapGo_eq_small (xs ys : List ℚ) (x : ℚ) (i : ℕ)
    (hfind : findSegmentStartIndex xs x = some i)
    (hsmall : segGap xs i < 1/1000) :
    linearMapGo xs ys x =
      Int.fract (ys.getD i 0 +
        Int.fract (ys.getD ((i + 1) % xs.length) 0 - ys.getD i 0) * (1/2)) := by
  simp only [linearMapGo, hfind, Option.getD_some]
  rw [show positiveModulo (xs.getD ((i + 1) % xs.length) 0 - xs.getD i 0) 1
      = segGap xs i from rfl]
  rw [if_pos hsmall, positiveModulo_one, positiveModulo_one]

/-- The counterexample progress array `[0.2, 0.2007, 0.5]` passes validation. -/
theorem validSpec_CE : validProgressSpec [(1:ℚ)/5, 2007/10000, 1/2] := by
  have hcp : cyclicPairs [(1:ℚ)/5, 2007/10000, 1/2]
      = [(1/2, 1/5), (1/5, 2007/10000), (2007/10000, 1/2)] := by
    unfold cyclicPairs chainPairs
    rfl
  refine ⟨?_, ?_, ?_⟩
  · intro v hv
    rcases List.mem_cons.mp hv with h | h
    · subst h; constructor <;> norm_num
    · rcases List.mem_cons.mp h with h1 | h1
      · subst h1; constructor <;> norm_num
      · rcases List.mem_cons.mp h1 with h2 | h2
        · subst h2; constructor <;> norm_num
        · cases h2
  · intro pr hpr
    rw [hcp] at hpr
    rcases List.mem_cons.mp hpr with h | h
    · subst h
      show progressDistance (1/5) (1/2) > DistanceEpsilon
      norm_num [progressDistance, DistanceEpsilon, abs_of_nonneg, abs_of_nonpos]
    · rcases List.mem_cons.mp h with h1 | h1
      · subst h1
        show progressDistance (2007/10000) (1/5) > DistanceEpsilon
        norm_num [progressDistance, DistanceEpsilon, abs_of_nonneg, abs_of_nonpos]
      · rcases List.mem_cons.mp h1 with h2 | h2
        · subst h2
          show progressDistance (1/2) (2007/10000) > DistanceEpsilon
          norm_num [progressDistance, DistanceEpsilon, abs_of_nonneg, abs_of_nonpos]
        · cases h2
  · rw [hcp]
    simp only [List.countP_cons, List.countP_nil, decide_eq_true_eq]
    norm_num

/-- The counterexample mapper constructs successfully. -/
theorem make_CE : DoubleMapper.make mappingsCE = .ok dmCE := by
  have hfst : mappingsCE.map Prod.fst = [(1:ℚ)/5, 2007/10000, 1/2] := rfl
  have hsnd : mappingsCE.map Prod.snd = [(1:ℚ)/5, 2007/10000, 1/2] := rfl
  have hv1 : validateProgress (mappingsCE.map Prod.fst) = .ok () := by
    rw [hfst]
    exact (validateProgress_ok_iff _).mpr validSpec_CE
  have hv2 : validateProgress (mappingsCE.map Prod.snd) = .ok () := by
    rw [hsnd]
    exact (validateProgress_ok_iff _).mpr validSpec_CE
  unfold DoubleMapper.make
  rw [hv1, hv2]
  rfl

/-- **C3 counterexample.** The mapper built from the pairs
`[(0.2, 0.2), (0.2007, 0.2007), (0.5, 0.5)]` constructs successfully, yet `map`
of the configured source value `0.2007` returns `0.20035`, not the configured
target `0.2007`: the segment from `0.2` to `0.2007` is `0.0007 < 0.001` long, so
`linearMap` discards the true position and uses the midpoint `0.5` of the
segment, breaking the claimed exactness `map(s_i) = t_i` (and, on such inputs,
the round trip as well). -/
theorem C3_counterexample :
    DoubleMapper.make mappingsCE = .ok dmCE ∧
    mappingsCE.getD 1 (0, 0) = (2007/10000, 2007/10000) ∧
    DoubleMapper.map dmCE (2007/10000) = .ok (4007/20000) ∧
    (4007/20000 : ℚ) ≠ 2007/10000 := by
  refine ⟨make_CE, rfl, ?_, by norm_num⟩
  have hfind : findSegmentStartIndex [(1:ℚ)/5, 2007/10000, 1/2] (2007/10000)
      = some 0 := by
    unfold findSegmentStartIndex
    rw [show ([(1:ℚ)/5, 2007/10000, 1/2]).length = 3 from rfl,
      show List.range 3 = [0, 1, 2] from rfl]
    apply List.find?_cons_of_pos
    show progressInRange (2007/10000 : ℚ)
      ([(1:ℚ)/5, 2007/10000, 1/2].getD 0 0)
      ([(1:ℚ)/5, 2007/10000, 1/2].getD ((0 + 1) % 3) 0) = true
    rw [show ([(1:ℚ)/5, 2007/10000, 1/2].getD 0 0) = 1/5 from rfl,
      show ((0 + 1) % 3) = 1 from rfl,
      show ([(1:ℚ)/5, 2007/10000, 1/2].getD 1 0) = 2007/10000 from rfl]
    unfold progressInRange
    rw [if_pos (by norm_num : (2007/10000:ℚ) ≥ 1/5)]
    simp only [decide_eq_true_eq]
    constructor <;> norm_num
  have hsmall : segGap [(1:ℚ)/5, 2007/10000, 1/2] 0 < 1/1000 := by
    rw [segGap_fract,
      show ((0 + 1) % ([(1:ℚ)/5, 2007/10000, 1/2]).length) = 1 from rfl,
      show ([(1:ℚ)/5, 2007/10000, 1/2].getD 1 0) = 2007/10000 from rfl,
      show ([(1:ℚ)/5, 2007/10000, 1/2].getD 0 0) = 1/5 from rfl,
      Int.fract_eq_self.mpr (show (0:ℚ) ≤ 2007/10000 - 1/5 ∧
        (2007/10000 - 1/5 : ℚ) < 1 from by constructor <;> norm_num)]
    norm_num
  have hok : DoubleMapper.map dmCE (2007/10000)
      = .ok (linearMapGo [(1:ℚ)/5, 2007/10000, 1/2] [(1:ℚ)/5, 2007/10000, 1/2]
        (2007/10000)) := by
    show linearMap [(1:ℚ)/5, 2007/10000, 1/2] [(1:ℚ)/5, 2007/10000, 1/2]
      (2007/10000) = _
    exact linearMap_ok_of_mem _ _ _ (by norm_num) (by norm_num) (by simp) (by simp)
  have hgo : linearMapGo [(1:ℚ)/5, 2007/10000, 1/2] [(1:ℚ)/5, 2007/10000, 1/2]
      (2007/10000) = 4007/20000 := by
    rw [linearMapGo_eq_small _ _ _ 0 hfind hsmall,
      show ((0 + 1) % ([(1:ℚ)/5, 2007/10000, 1/2]).length) = 1 from rfl,
      show ([(1:ℚ)/5, 2007/10000, 1/2].getD 1 0) = 2007/10000 from rfl,
      show ([(1:ℚ)/5, 2007/10000, 1/2].getD 0 0) = 1/5 from rfl,
      Int.fract_eq_self.mpr (show (0:ℚ) ≤ 2007/10000 - 1/5 ∧
        (2007/10000 - 1/5 : ℚ) < 1 from by constructor <;> norm_num),
      show (1:ℚ)/5 + (2007/10000 - 1/5) * (1/2) = 4007/20000 from by norm_num,
      Int.fract_eq_self.mpr (show (0:ℚ) ≤ 4007/20000 ∧
        (4007/20000 : ℚ) < 1 from by constructor <;> norm_num)]
  rw [hok, hgo]

/-- The witness progress array `[0, 1/2]` passes validation. -/
theorem validSpec_W : validProgressSpec [(0:ℚ), 1/2] := by
  have hcp : cyclicPairs [(0:ℚ), 1/2] = [(1/2, 0), (0, 1/2)] := by
    unfold cyclicPairs chainPairs
    rfl
  refine ⟨?_, ?_, ?_⟩
  · intro v hv
    rcases List.mem_cons.mp hv with h | h
    · subst h; constructor <;> norm_num
    · rcases List.mem_cons.mp h with h1 | h1
      · subst h1; constructor <;> norm_num
      · cases h1
  · intro pr hpr
    rw [hcp] at hpr
    rcases List.mem_cons.mp hpr with h | h
    · subst h
      show progressDistance 0 (1/2) > DistanceEpsilon
      norm_num [progressDistance, DistanceEpsilon, abs_of_nonneg, abs_of_nonpos]
    · rcases List.mem_cons.mp h with h1 | h1
      · subst h1
        show progressDistance (1/2) 0 > DistanceEpsilon
        norm_num [progressDistance, DistanceEpsilon, abs_of_nonneg, abs_of_nonpos]
      · cases h1
  · rw [hcp]
    simp only [List.countP_cons, List.countP_nil, decide_eq_true_eq]
    norm_num

/-- The witness mapper constructs successfully from the identity pairs. -/
theorem make_W : DoubleMapper.make IdentityMapping = .ok dmW := by
  have hfst : IdentityMapping.map Prod.fst = [(0:ℚ), 1/2] := rfl
  have hsnd : IdentityMapping.map Prod.snd = [(0:ℚ), 1/2] := rfl
  have hv1 : validateProgress (IdentityMapping.map Prod.fst) = .ok () := by
    rw [hfst]
    exact (validateProgress_ok_iff _).mpr validSpec_W
  have hv2 : validateProgress (IdentityMapping.map Prod.snd) = .ok () := by
    rw [hsnd]
    exact (validateProgress_ok_iff _).mpr validSpec_W
  unfold DoubleMapper.make
  rw [hv1, hv2]
  rfl

/-- Both cyclic gaps of the witness array `[0, 1/2]` are `1/2 ≥ 0.001`. -/
theorem gapW : ∀ i, i < ([(0:ℚ), 1/2]).length → 1/1000 ≤ segGap [(0:ℚ), 1/2] i := by
  intro i hi
  have hi2 : i < 2 := by simpa using hi
  interval_cases i
  · rw [segGap_fract, show ((0 + 1) % ([(0:ℚ), 1/2]).length) = 1 from rfl,
      show ([(0:ℚ), 1/2].getD 1 0) = 1/2 from rfl,
      show ([(0:ℚ), 1/2].getD 0 0) = 0 from rfl,
      Int.fract_eq_self.mpr (show (0:ℚ) ≤ 1/2 - 0 ∧ ((1:ℚ)/2 - 0 : ℚ) < 1 from by
        constructor <;> norm_num)]
    norm_num
  · rw [segGap_fract, show ((1 + 1) % ([(0:ℚ), 1/2]).length) = 0 from rfl,
      show ([(0:ℚ), 1/2].getD 0 0) = 0 from rfl,
      show ([(0:ℚ), 1/2].getD 1 0) = 1/2 from rfl,
      fract_small _ (by norm_num) (by norm_num), if_neg (by norm_num)]
    norm_num

/-- Concrete instantiation of the amended C3 theorem: the identity mapper on
`{0, 1/2}` maps `1/4` to a value that `mapBack` returns to `1/4` exactly, and
maps the configured source `1/2` to the configured target `1/2`. -/
theorem C3_doubleMapper_roundtrip_witness :
    DoubleMapper.map dmW (1/4)
      = .ok (linearMapGo dmW.sourceValues dmW.targetValues (1/4)) ∧
    DoubleMapper.mapBack dmW (linearMapGo dmW.sourceValues dmW.targetValues (1/4))
      = .ok (1/4) ∧
    DoubleMapper.map dmW ((IdentityMapping.getD 1 (0, 0)).1)
      = .ok ((IdentityMapping.getD 1 (0, 0)).2) := by
  have h := C3_doubleMapper_roundtrip IdentityMapping dmW make_W
    (by simp [dmW]) gapW gapW
  obtain ⟨hmain, hexact⟩ := h
  obtain ⟨hmap, -, -, hback⟩ := hmain (1/4) (by norm_num) (by norm_num)
  exact ⟨hmap, hback, hexact 1 (by simp [IdentityMapping])⟩

end Shapes
